import Mathlib

/-!
# CornBot Maze Solver — verification development

The repository describes (README, spec) a maze-solving pipeline:
Maze Loader → Maze Model → Path Search Engine → Path Encoder.
Only a stub HTTP server is implemented in Go; the Solver core below is
modelled from the specification text.  The fake bot server
(`src/solver/bots/fake_bot.go`) is embedded at the end of the file.
-/

namespace CornBot

/-- Modelled from the spec: a cell coordinate, `(row, column)`, 0-indexed,
row increasing southward, column increasing eastward (spec §3). -/
structure Pos where
  row : Nat
  col : Nat
deriving DecidableEq, Repr

/-- Modelled from the spec: the four move / wall directions (spec §3, §4.4). -/
inductive Dir where
  | north
  | south
  | east
  | west
deriving DecidableEq, Repr

/-- Modelled from the spec: one maze cell record with its four boolean wall
flags; `true` means the wall is passable (spec §3). -/
structure Block where
  pos : Pos
  north : Bool
  south : Bool
  east : Bool
  west : Bool
deriving DecidableEq, Repr

instance exceptDecEq {ε α : Type} [DecidableEq ε] [DecidableEq α] :
    DecidableEq (Except ε α) := fun a b =>
  match a, b with
  | Except.error x, Except.error y =>
    if h : x = y then isTrue (congrArg Except.error h)
    else isFalse (fun hc => h (by injection hc))
  | Except.error _, Except.ok _ => isFalse (fun hc => Except.noConfusion hc)
  | Except.ok _, Except.error _ => isFalse (fun hc => Except.noConfusion hc)
  | Except.ok x, Except.ok y =>
    if h : x = y then isTrue (congrArg Except.ok h)
    else isFalse (fun hc => h (by injection hc))

/-- The wall flag of a block in a given direction. -/
def Block.wall (b : Block) : Dir → Bool
  | Dir.north => b.north
  | Dir.south => b.south
  | Dir.east => b.east
  | Dir.west => b.west

/-- Moving one cell in a direction: north = row-1, south = row+1,
east = col+1, west = col-1 (spec §3, §8).  `none` when the move would leave
the `Nat × Nat` quadrant. -/
def stepDir (p : Pos) : Dir → Option Pos
  | Dir.north => if p.row = 0 then none else some ⟨p.row - 1, p.col⟩
  | Dir.south => some ⟨p.row + 1, p.col⟩
  | Dir.east => some ⟨p.row, p.col + 1⟩
  | Dir.west => if p.col = 0 then none else some ⟨p.row, p.col - 1⟩

/-- Modelled from the spec: the Maze Model, a dense collection of cells with
`width`/`height` bounds (spec §3). -/
structure Maze where
  width : Nat
  height : Nat
  blocks : List Block
deriving DecidableEq, Repr

/-- A coordinate is in bounds when it lies in the `width × height` rectangle. -/
def Maze.inBounds (m : Maze) (p : Pos) : Bool :=
  decide (p.row < m.height) && decide (p.col < m.width)

/-- Error result of cell lookup (spec §4.1 / §7). -/
inductive CellErr where
  | OutOfBounds (p : Pos)
  | MissingCell (p : Pos)
deriving DecidableEq, Repr

/-- Modelled from the spec: cell lookup by coordinate; fails with
`OutOfBounds` outside `[0,width) × [0,height)` (spec §4.1). -/
def Maze.cell (m : Maze) (p : Pos) : Except CellErr Block :=
  if m.inBounds p then
    match m.blocks.find? (fun b => decide (b.pos = p)) with
    | some b => Except.ok b
    | none => Except.error (CellErr.MissingCell p)
  else Except.error (CellErr.OutOfBounds p)

/-- The fixed neighbor-visit order: north, east, south, west (spec §4.3). -/
def dirOrder : List Dir := [Dir.north, Dir.east, Dir.south, Dir.west]

/-- The neighbor of cell `p` (with block data `b`) in direction `d`, when the
wall there is passable and the neighbor is in bounds (spec §4.1). -/
def nbrOf (m : Maze) (b : Block) (p : Pos) (d : Dir) : Option Pos :=
  if b.wall d then
    (stepDir p d).bind (fun q => if m.inBounds q then some q else none)
  else none

/-- Modelled from the spec: the set of reachable neighbor coordinates of a
cell — a neighbor is reachable iff the wall flag in that direction is true
and the neighbor coordinate is in bounds (spec §4.1), listed in the fixed
tie-break order north, east, south, west (spec §4.3). -/
def Maze.neighbors (m : Maze) (p : Pos) : List Pos :=
  match m.cell p with
  | Except.error _ => []
  | Except.ok b => dirOrder.filterMap (nbrOf m b p)

/-! ## Maze Loader (spec §4.2, §6) -/

/-- A JSON-ish value, enough to model the published input schema (spec §6). -/
inductive JVal where
  | jnull
  | jbool (b : Bool)
  | jnum (n : Int)
  | jstr (s : String)
  | jarr (xs : List Int)
deriving DecidableEq, Repr

/-- An edge between two adjacent cells whose shared wall flags disagree. -/
structure WallEdge where
  a : Pos
  b : Pos
deriving DecidableEq, Repr

/-- Loader / model construction errors (spec §4.1, §4.2, §7). -/
inductive LoadErr where
  | MalformedRecord (idx : Nat)
  | DuplicateCell (p : Pos)
  | MissingCell (p : Pos)
  | OutOfBounds (p : Pos)
  | InconsistentWalls (edges : List WallEdge)
deriving DecidableEq, Repr

/-- Look up a field of a JSON object record. -/
def getField (r : List (String × JVal)) (k : String) : Option JVal :=
  match r.find? (fun f => decide (f.fst = k)) with
  | some f => some f.snd
  | none => none

/-- Parse a boolean field. -/
def parseBool : Option JVal → Option Bool
  | some (JVal.jbool b) => some b
  | _ => none

/-- Parse a `"pos": [row, col]` field. -/
def parsePos : Option JVal → Option Pos
  | some (JVal.jarr [r, c]) =>
    if 0 ≤ r ∧ 0 ≤ c then some ⟨r.toNat, c.toNat⟩ else none
  | _ => none

/-- Modelled from the spec: parse one block record
`\x7b pos, north, south, east, west \x7d`; `none` on a missing or
wrong-typed field (spec §4.2, §6). -/
def parseRecord (r : List (String × JVal)) : Option Block :=
  match parsePos (getField r "pos"), parseBool (getField r "north"),
      parseBool (getField r "south"), parseBool (getField r "east"),
      parseBool (getField r "west") with
  | some p, some n, some s, some e, some w => some ⟨p, n, s, e, w⟩
  | _, _, _, _, _ => none

/-- Parse all records, reporting the index of the first malformed one. -/
def parseRecords (idx : Nat) : List (List (String × JVal)) → Except LoadErr (List Block)
  | [] => Except.ok []
  | r :: rest =>
    match parseRecord r with
    | none => Except.error (LoadErr.MalformedRecord idx)
    | some b =>
      match parseRecords (idx + 1) rest with
      | Except.error e => Except.error e
      | Except.ok bs => Except.ok (b :: bs)

/-- First position occurring in two different records, if any. -/
def findDupPos : List Block → Option Pos
  | [] => none
  | b :: rest =>
    if rest.any (fun c => decide (c.pos = b.pos)) then some b.pos
    else findDupPos rest

/-- All grid coordinates of a `width × height` maze, row-major. -/
def gridPositions (width height : Nat) : List Pos :=
  (List.range height ×ˢ List.range width).map (fun rc => ⟨rc.fst, rc.snd⟩)

/-- First in-bounds coordinate with no record, if any. -/
def findMissingPos (width height : Nat) (bs : List Block) : Option Pos :=
  (gridPositions width height).find?
    (fun p => !(bs.any (fun b => decide (b.pos = p))))

/-- First record whose position lies outside the declared bounds, if any. -/
def findOobBlock (width height : Nat) (bs : List Block) : Option Pos :=
  match bs.find? (fun b => !(decide (b.pos.row < height) && decide (b.pos.col < width))) with
  | some b => some b.pos
  | none => none

/-- Does the shared east/west wall between `p` and the cell east of it
disagree? (spec §3 invariant). -/
def eastViolation (m : Maze) (p : Pos) : Bool :=
  match m.cell p, m.cell ⟨p.row, p.col + 1⟩ with
  | Except.ok a, Except.ok b => !(decide (a.east = b.west))
  | _, _ => false

/-- Does the shared south/north wall between `p` and the cell south of it
disagree? (spec §3 invariant). -/
def southViolation (m : Maze) (p : Pos) : Bool :=
  match m.cell p, m.cell ⟨p.row + 1, p.col⟩ with
  | Except.ok a, Except.ok b => !(decide (a.south = b.north))
  | _, _ => false

/-- Modelled from the spec: every violating shared-wall edge of the grid;
validation does not stop at the first error (spec §4.1, §7). -/
def wallViolations (m : Maze) : List WallEdge :=
  (gridPositions m.width m.height).flatMap (fun p =>
    (if eastViolation m p then [⟨p, ⟨p.row, p.col + 1⟩⟩] else []) ++
    (if southViolation m p then [⟨p, ⟨p.row + 1, p.col⟩⟩] else []))

/-- The Loader's input: declared bounds plus raw block records (spec §6). -/
structure MazeInput where
  width : Nat
  height : Nat
  blocks : List (List (String × JVal))

/-- Modelled from the spec: the Maze Loader.  Parses every record
(`MalformedRecord` on failure), rejects duplicated (`DuplicateCell`),
absent (`MissingCell`) and out-of-range (`OutOfBounds`) coordinates, then
builds the Maze Model and validates the shared-wall invariant, failing with
`InconsistentWalls` listing every violating edge (spec §4.1, §4.2). -/
def load (inp : MazeInput) : Except LoadErr Maze :=
  match parseRecords 0 inp.blocks with
  | Except.error e => Except.error e
  | Except.ok bs =>
    match findDupPos bs with
    | some p => Except.error (LoadErr.DuplicateCell p)
    | none =>
      match findMissingPos inp.width inp.height bs with
      | some p => Except.error (LoadErr.MissingCell p)
      | none =>
        match findOobBlock inp.width inp.height bs with
        | some p => Except.error (LoadErr.OutOfBounds p)
        | none =>
          let m : Maze := ⟨inp.width, inp.height, bs⟩
          match wallViolations m with
          | [] => Except.ok m
          | e :: es => Except.error (LoadErr.InconsistentWalls (e :: es))

/-! ## Path Search Engine (spec §4.3) -/

/-- Search outcome errors (spec §4.3, §7). -/
inductive SearchErr where
  | NoPathExists
  | OutOfBounds (p : Pos)
deriving DecidableEq, Repr

/-- Look up the recorded BFS predecessor of a cell. -/
def lookupPred : List (Pos × Pos) → Pos → Option Pos
  | [], _ => none
  | e :: rest, q => if e.fst = q then some e.snd else lookupPred rest q

/-- One BFS layer expansion: collect, scanning the frontier in discovery
order and each cell's neighbors in the fixed north-east-south-west order,
every not-yet-visited cell, recording the first cell that discovers it as
its predecessor (spec §4.3). -/
def expandAux (m : Maze) (visited : List Pos) :
    List Pos → List Pos → List (Pos × Pos) → List Pos × List (Pos × Pos)
  | [], accF, accP => (accF, accP)
  | p :: rest, accF, accP =>
    let fresh := (m.neighbors p).filter (fun q => decide (¬ q ∈ visited ∧ ¬ q ∈ accF))
    expandAux m visited rest (accF ++ fresh) (accP ++ fresh.map (fun q => (q, p)))

/-- The BFS main loop, fuelled by the total cell count (spec §4.3: the search
is bounded by the total number of cells).  Returns the predecessor map when
the goal is reached, `none` when the frontier empties or the fuel runs out,
together with the final visited list. -/
def bfsLoop (m : Maze) (goal : Pos) :
    Nat → List Pos → List Pos → List (Pos × Pos) → Option (List (Pos × Pos)) × List Pos
  | fuel, visited, front, preds =>
    if goal ∈ front then (some preds, visited)
    else
      match fuel with
      | 0 => (none, visited)
      | Nat.succ fuel' =>
        let ex := expandAux m visited front [] []
        if ex.fst = [] then (none, visited)
        else bfsLoop m goal fuel' (visited ++ ex.fst) ex.fst (preds ++ ex.snd)

/-- Reconstruct the path from the predecessor map, walking back from the
goal to the start. -/
def traceBack (preds : List (Pos × Pos)) (start : Pos) :
    Nat → Pos → Option (List Pos)
  | fuel, p =>
    if p = start then some [start]
    else
      match fuel with
      | 0 => none
      | Nat.succ fuel' =>
        match lookupPred preds p with
        | none => none
        | some q =>
          match traceBack preds start fuel' q with
          | none => none
          | some l => some (l ++ [p])

/-- Modelled from the spec: the Path Search Engine — breadth-first search
over the Maze's adjacency relation from `start` to `goal`, returning a
shortest block-wise path (as its cell sequence) or `NoPathExists`
(spec §4.3). -/
def Maze.search (m : Maze) (start goal : Pos) : Except SearchErr (List Pos) :=
  if m.inBounds start then
    if m.inBounds goal then
      match (bfsLoop m goal (m.width * m.height) [start] [start] []).fst with
      | none => Except.error SearchErr.NoPathExists
      | some preds =>
        match traceBack preds start (m.width * m.height) goal with
        | none => Except.error SearchErr.NoPathExists
        | some l => Except.ok l
    else Except.error (SearchErr.OutOfBounds goal)
  else Except.error (SearchErr.OutOfBounds start)

/-- The final visited list of the search's BFS loop (for the resource bound:
the search visits at most `width * height` cells, spec §4.3). -/
def Maze.searchVisited (m : Maze) (start goal : Pos) : List Pos :=
  (bfsLoop m goal (m.width * m.height) [start] [start] []).snd

/-! ## Path Encoder (spec §4.4) -/

/-- Encoder error (spec §4.4, §7). -/
inductive EncodeErr where
  | NonAdjacentStep (a : Pos) (b : Pos)
deriving DecidableEq, Repr

/-- The move direction matching a coordinate delta: north = row-1,
south = row+1, east = col+1, west = col-1 (spec §4.4, §8); `none` when the
two cells are not one valid single-step move apart. -/
def deltaDir (a b : Pos) : Option Dir :=
  if b.row + 1 = a.row ∧ b.col = a.col then some Dir.north
  else if a.row + 1 = b.row ∧ a.col = b.col then some Dir.south
  else if a.row = b.row ∧ a.col + 1 = b.col then some Dir.east
  else if a.row = b.row ∧ b.col + 1 = a.col then some Dir.west
  else none

/-- Modelled from the spec: the Path Encoder — emits the ordered move
directions derived from consecutive cell deltas, failing with
`NonAdjacentStep` if any consecutive pair is not a valid single-step move
(spec §4.4). -/
def encodeMoves : List Pos → Except EncodeErr (List Dir)
  | [] => Except.ok []
  | [_] => Except.ok []
  | a :: b :: rest =>
    match deltaDir a b with
    | none => Except.error (EncodeErr.NonAdjacentStep a b)
    | some d =>
      match encodeMoves (b :: rest) with
      | Except.error e => Except.error e
      | Except.ok ds => Except.ok (d :: ds)

/-- Decode a move-direction sequence back into the cell sequence it visits,
starting from a given cell (spec §8, round-trip property). -/
def decodeMoves (p : Pos) : List Dir → Option (List Pos)
  | [] => some [p]
  | d :: ds =>
    match stepDir p d with
    | none => none
    | some q =>
      match decodeMoves q ds with
      | none => none
      | some l => some (p :: l)

/-- Walk a move sequence through the maze, succeeding only when every move
crosses a passable wall to an in-bounds cell; returns the final cell. -/
def followMoves (m : Maze) (p : Pos) : List Dir → Option Pos
  | [] => some p
  | d :: ds =>
    match stepDir p d with
    | none => none
    | some q => if q ∈ m.neighbors p then followMoves m q ds else none

/-! ## Specification-level path predicates -/

/-- Every consecutive pair of the cell sequence is connected by a passable
wall (spec §3, Path). -/
def validSteps (m : Maze) (l : List Pos) : Prop :=
  List.Chain' (fun a b => b ∈ m.neighbors a) l

instance validStepsDec (m : Maze) : (l : List Pos) → Decidable (validSteps m l)
  | [] => isTrue List.chain'_nil
  | [a] => isTrue (List.chain'_singleton a)
  | a :: b :: rest =>
    match inferInstanceAs (Decidable (b ∈ m.neighbors a)), validStepsDec m (b :: rest) with
    | isTrue h1, isTrue h2 => isTrue (List.chain'_cons.2 ⟨h1, h2⟩)
    | isFalse h1, _ => isFalse (fun hc => h1 (List.chain'_cons.1 hc).1)
    | _, isFalse h2 => isFalse (fun hc => h2 (List.chain'_cons.1 hc).2)

/-- `l` is a block-wise path of the maze from `s` to `g` (spec §3). -/
def isPath (m : Maze) (s g : Pos) (l : List Pos) : Prop :=
  l.head? = some s ∧ l.getLast? = some g ∧ validSteps m l

instance (m : Maze) (s g : Pos) (l : List Pos) : Decidable (isPath m s g l) :=
  inferInstanceAs (Decidable (_ ∧ _ ∧ _))

/-- `g` is reachable from `s` by a path of at most `k` moves. -/
def reachIn (m : Maze) (s g : Pos) (k : Nat) : Prop :=
  ∃ l, isPath m s g l ∧ l.length ≤ k + 1

/-- `g` is at BFS distance exactly `k` from `s`. -/
def sphereAt (m : Maze) (s g : Pos) (k : Nat) : Prop :=
  reachIn m s g k ∧ ∀ j, j < k → ¬ reachIn m s g j

/-- `g` is reachable from `s` through passable walls. -/
def reachable (m : Maze) (s g : Pos) : Prop :=
  ∃ l, isPath m s g l

/-- The cell sequence `l` is what walking the predecessor map back from a
cell to the start reconstructs. -/
inductive TracesTo (preds : List (Pos × Pos)) (s : Pos) : Pos → List Pos → Prop where
  | base : TracesTo preds s s [s]
  | step : ∀ (p q : Pos) (l : List Pos), TracesTo preds s p l → q ≠ s →
      lookupPred preds q = some p → TracesTo preds s q (l ++ [q])

/-- The state of the BFS loop after `k` completed layer expansions:
visited cells are exactly those within distance `k`, the frontier holds
exactly the cells at distance `k`, visited cells are never repeated, and
the predecessor map reconstructs a shortest path to every visited cell. -/
def LoopInv (m : Maze) (s : Pos) (k : Nat) (visited front : List Pos)
    (preds : List (Pos × Pos)) : Prop :=
  (∀ q, q ∈ visited ↔ reachIn m s q k) ∧
  (∀ q, q ∈ front ↔ sphereAt m s q k) ∧
  visited.Nodup ∧
  (∀ q r, lookupPred preds q = some r → q ∈ visited ∧ q ≠ s) ∧
  (∀ q, q ∈ visited → ∃ l, TracesTo preds s q l ∧ isPath m s q l ∧
    sphereAt m s q (l.length - 1))

/-- Row-major encoding of a coordinate. -/
def encodePos (w : Nat) (p : Pos) : Nat := w * p.row + p.col

/-- Spec-level statement that the shared east/west wall between `a` and the
cell immediately east of it disagrees. -/
def eastViolates (m : Maze) (a : Pos) : Prop :=
  ∃ ba bb, m.cell a = Except.ok ba ∧ m.cell ⟨a.row, a.col + 1⟩ = Except.ok bb ∧
    ¬ ba.east = bb.west

/-- Spec-level statement that the shared south/north wall between `a` and the
cell immediately south of it disagrees. -/
def southViolates (m : Maze) (a : Pos) : Prop :=
  ∃ ba bb, m.cell a = Except.ok ba ∧ m.cell ⟨a.row + 1, a.col⟩ = Except.ok bb ∧
    ¬ ba.south = bb.north

/-- Spec-level statement that `e` is an edge between two adjacent cells whose
shared wall flags disagree (spec §3 invariant). -/
def violatingEdge (m : Maze) (e : WallEdge) : Prop :=
  (e.b = ⟨e.a.row, e.a.col + 1⟩ ∧ eastViolates m e.a) ∨
  (e.b = ⟨e.a.row + 1, e.a.col⟩ ∧ southViolates m e.a)

/-- Two cells are one valid single-step move apart. -/
def adjacentStep (a b : Pos) : Prop :=
  ∃ d, stepDir a d = some b

instance adjacentStepDec (a b : Pos) : Decidable (adjacentStep a b) :=
  if h : stepDir a Dir.north = some b ∨ stepDir a Dir.south = some b ∨
      stepDir a Dir.east = some b ∨ stepDir a Dir.west = some b then
    isTrue (by
      rcases h with h | h | h | h
      exacts [⟨Dir.north, h⟩, ⟨Dir.south, h⟩, ⟨Dir.east, h⟩, ⟨Dir.west, h⟩])
  else
    isFalse (by
      rintro ⟨d, hd⟩
      cases d
      exacts [h (Or.inl hd), h (Or.inr (Or.inl hd)), h (Or.inr (Or.inr (Or.inl hd))),
        h (Or.inr (Or.inr (Or.inr hd)))])

instance adjacentChainDec : (l : List Pos) → Decidable (List.Chain' adjacentStep l)
  | [] => isTrue List.chain'_nil
  | [a] => isTrue (List.chain'_singleton a)
  | a :: b :: rest =>
    match adjacentStepDec a b, adjacentChainDec (b :: rest) with
    | isTrue h1, isTrue h2 => isTrue (List.chain'_cons.2 ⟨h1, h2⟩)
    | isFalse h1, _ => isFalse (fun hc => h1 (List.chain'_cons.1 hc).1)
    | _, isFalse h2 => isFalse (fun hc => h2 (List.chain'_cons.1 hc).2)

/-! ## Concrete example mazes -/

/-- One JSON block record in the Maze Parser's published schema (spec §6). -/
def blockRecord (r c : Int) (n s e w : Bool) : List (String × JVal) :=
  [("pos", JVal.jarr [r, c]), ("north", JVal.jbool n), ("south", JVal.jbool s),
   ("east", JVal.jbool e), ("west", JVal.jbool w)]

/-- The 3×3 example maze of the documentation (README), as Loader input. -/
def ex3Input : MazeInput :=
  ⟨3, 3,
   [blockRecord 0 0 false true true false,
    blockRecord 0 1 false false false true,
    blockRecord 0 2 false true false false,
    blockRecord 1 0 true true false false,
    blockRecord 1 1 false true true false,
    blockRecord 1 2 true false false true,
    blockRecord 2 0 true false true false,
    blockRecord 2 1 true false true true,
    blockRecord 2 2 false false false true]⟩

/-- The Maze Model the Loader builds from `ex3Input`. -/
def ex3Maze : Maze :=
  ⟨3, 3,
   [⟨⟨0, 0⟩, false, true, true, false⟩,
    ⟨⟨0, 1⟩, false, false, false, true⟩,
    ⟨⟨0, 2⟩, false, true, false, false⟩,
    ⟨⟨1, 0⟩, true, true, false, false⟩,
    ⟨⟨1, 1⟩, false, true, true, false⟩,
    ⟨⟨1, 2⟩, true, false, false, true⟩,
    ⟨⟨2, 0⟩, true, false, true, false⟩,
    ⟨⟨2, 1⟩, true, false, true, true⟩,
    ⟨⟨2, 2⟩, false, false, false, true⟩]⟩

/-- The shortest path of `ex3Maze` from (0,0) to (2,2). -/
def ex3Path : List Pos := [⟨0, 0⟩, ⟨1, 0⟩, ⟨2, 0⟩, ⟨2, 1⟩, ⟨2, 2⟩]

/-- A 2×2 maze with every interior wall open: two tied shortest paths from
(0,0) to (1,1). -/
def tieInput : MazeInput :=
  ⟨2, 2,
   [blockRecord 0 0 false true true false,
    blockRecord 0 1 false true false true,
    blockRecord 1 0 true false true false,
    blockRecord 1 1 true false false true]⟩

/-- The Maze Model the Loader builds from `tieInput`. -/
def tieMaze : Maze :=
  ⟨2, 2,
   [⟨⟨0, 0⟩, false, true, true, false⟩,
    ⟨⟨0, 1⟩, false, true, false, true⟩,
    ⟨⟨1, 0⟩, true, false, true, false⟩,
    ⟨⟨1, 1⟩, true, false, false, true⟩]⟩

/-- A 2×1 maze whose single shared wall is declared passable on one side
only: exactly one inconsistent edge. -/
def badInput : MazeInput :=
  ⟨2, 1,
   [blockRecord 0 0 false false true false,
    blockRecord 0 1 false false false false]⟩

/-- The parsed blocks of `badInput`. -/
def badBlocks : List Block :=
  [⟨⟨0, 0⟩, false, false, true, false⟩,
   ⟨⟨0, 1⟩, false, false, false, false⟩]

/-- A 2×1 maze whose two cells are fully walled in: the goal is isolated. -/
def isoInput : MazeInput :=
  ⟨2, 1,
   [blockRecord 0 0 false false false false,
    blockRecord 0 1 false false false false]⟩

/-- The Maze Model the Loader builds from `isoInput`. -/
def isoMaze : Maze :=
  ⟨2, 1,
   [⟨⟨0, 0⟩, false, false, false, false⟩,
    ⟨⟨0, 1⟩, false, false, false, false⟩]⟩

/-- A 1×1 input whose single record lacks the wall fields. -/
def malInput : MazeInput := ⟨1, 1, [[("pos", JVal.jarr [0, 0])]]⟩

/-- A 1×1 input that declares cell (0,0) twice. -/
def dupInput : MazeInput :=
  ⟨1, 1, [blockRecord 0 0 false false false false,
    blockRecord 0 0 false false false false]⟩

/-- A 2×1 input with no record for cell (0,1). -/
def missInput : MazeInput := ⟨2, 1, [blockRecord 0 0 false false false false]⟩

/-! ## The fake bot HTTP server (src/solver/bots/fake_bot.go) -/

/-- An HTTP request as seen by a handler of the fake bot server. -/
structure HttpRequest where
  method : String
  url : String
  body : String

/-- The handler of `fake_bot.go`: it ignores its request entirely and writes
one fixed string as the response body. -/
def fakeBotHandler (_r : HttpRequest) : String := "Hello from a HandleFunc!\n"

/-- The route table of `fake_bot.go`: `http.HandleFunc` is called once,
registering the handler at path "/". -/
def fakeBotRoutes : List (String × (HttpRequest → String)) := [("/", fakeBotHandler)]

/-! ## Basic lemmas about neighbors and steps -/

theorem nbrOf_eq_some {m : Maze} {b : Block} {p : Pos} {d : Dir} {q : Pos} :
    nbrOf m b p d = some q ↔
      b.wall d = true ∧ stepDir p d = some q ∧ m.inBounds q = true := by
  unfold nbrOf
  cases hw : b.wall d
  · simp
  · cases hs : stepDir p d with
    | none => simp
    | some r =>
      simp only [if_true, Option.some_bind]
      by_cases hb : m.inBounds r = true
      · rw [if_pos hb]
        constructor
        · rintro h
          cases h
          exact ⟨by trivial, rfl, hb⟩
        · rintro ⟨_, h, _⟩
          exact h
      · rw [if_neg hb]
        constructor
        · rintro h
          exact absurd h (by simp)
        · rintro ⟨_, h, hq⟩
          cases h
          exact absurd hq hb

theorem mem_neighbors_iff {m : Maze} {p q : Pos} :
    q ∈ m.neighbors p ↔ ∃ b d, m.cell p = Except.ok b ∧ b.wall d = true ∧
      stepDir p d = some q ∧ m.inBounds q = true := by
  unfold Maze.neighbors
  cases hc : m.cell p with
  | error e => simp
  | ok b =>
    simp only [List.mem_filterMap]
    constructor
    · rintro ⟨d, _, hf⟩
      obtain ⟨hw, hs, hq⟩ := nbrOf_eq_some.1 hf
      exact ⟨b, d, rfl, hw, hs, hq⟩
    · rintro ⟨b', d, hb, hw, hs, hq⟩
      cases hb
      exact ⟨d, by cases d <;> simp [dirOrder], nbrOf_eq_some.2 ⟨hw, hs, hq⟩⟩

theorem neighbors_inBounds {m : Maze} {p q : Pos} (h : q ∈ m.neighbors p) :
    m.inBounds q = true := by
  obtain ⟨b, d, _, _, _, hq⟩ := mem_neighbors_iff.1 h
  exact hq

theorem mem_neighbors_step {m : Maze} {p q : Pos} (h : q ∈ m.neighbors p) :
    ∃ d, stepDir p d = some q := by
  obtain ⟨b, d, _, _, hs, _⟩ := mem_neighbors_iff.1 h
  exact ⟨d, hs⟩

theorem stepDir_inj {p : Pos} {d₁ d₂ : Dir} {q : Pos}
    (h₁ : stepDir p d₁ = some q) (h₂ : stepDir p d₂ = some q) : d₁ = d₂ := by
  cases d₁ <;> cases d₂ <;> (try rfl) <;> exfalso <;>
    simp only [stepDir] at h₁ h₂ <;>
    (try split_ifs at h₁ h₂) <;>
    (first
      | exact Option.noConfusion h₁
      | exact Option.noConfusion h₂
      | (have h := (Option.some.inj h₁).trans (Option.some.inj h₂).symm
         simp only [Pos.mk.injEq] at h
         omega))

theorem neighbors_nodup (m : Maze) (p : Pos) : (m.neighbors p).Nodup := by
  unfold Maze.neighbors
  cases hc : m.cell p with
  | error e => exact List.nodup_nil
  | ok b =>
    apply List.Nodup.filterMap
    · intro d₁ d₂ q hq₁ hq₂
      obtain ⟨_, hs₁, _⟩ := nbrOf_eq_some.1 hq₁
      obtain ⟨_, hs₂, _⟩ := nbrOf_eq_some.1 hq₂
      exact stepDir_inj hs₁ hs₂
    · decide

/-! ## Path lemmas -/

theorem isPath_single (m : Maze) (s : Pos) : isPath m s s [s] := by
  refine ⟨rfl, rfl, ?_⟩
  exact List.chain'_singleton s

theorem isPath_ne_nil {m : Maze} {s g : Pos} {l : List Pos} (h : isPath m s g l) :
    l ≠ [] := by
  intro hl
  rw [hl] at h
  exact absurd h.1 (by simp)

theorem isPath_length_pos {m : Maze} {s g : Pos} {l : List Pos} (h : isPath m s g l) :
    1 ≤ l.length :=
  List.length_pos.2 (isPath_ne_nil h)

theorem isPath_extend {m : Maze} {s p q : Pos} {l : List Pos}
    (h : isPath m s p l) (hq : q ∈ m.neighbors p) : isPath m s q (l ++ [q]) := by
  obtain ⟨h1, h2, h3⟩ := h
  refine ⟨?_, ?_, ?_⟩
  · rw [List.head?_append_of_ne_nil _ (isPath_ne_nil ⟨h1, h2, h3⟩)]
    exact h1
  · exact List.getLast?_concat l
  · apply List.Chain'.append h3 (List.chain'_singleton q)
    intro x hx y hy
    simp only [List.head?_cons, Option.mem_def, Option.some.injEq] at hy
    rw [h2] at hx
    simp only [Option.mem_def, Option.some.injEq] at hx
    rw [hx, hy] at hq
    exact hq

theorem isPath_start_mem {m : Maze} {s g : Pos} {l : List Pos} (h : isPath m s g l) :
    s ∈ l := by
  cases l with
  | nil => exact absurd h.1 (by simp)
  | cons a t =>
    have : a = s := by
      have := h.1
      simp only [List.head?_cons, Option.some.injEq] at this
      exact this
    rw [this]
    exact List.mem_cons_self s t

theorem isPath_split {m : Maze} {s g : Pos} {l : List Pos}
    (h : isPath m s g l) (hlen : 2 ≤ l.length) :
    ∃ l' p, l = l' ++ [g] ∧ isPath m s p l' ∧ g ∈ m.neighbors p ∧
      l'.length + 1 = l.length := by
  obtain ⟨h1, h2, h3⟩ := h
  have hne : l ≠ [] := by intro hl; rw [hl] at h1; exact absurd h1 (by simp)
  have hsplit : l = l.dropLast ++ [l.getLast hne] := (List.dropLast_append_getLast hne).symm
  have hg : l.getLast hne = g := by
    have := List.getLast?_eq_getLast l hne
    rw [h2] at this
    exact (Option.some.injEq _ _ ▸ this.symm)
  have hlen' : l.dropLast.length + 1 = l.length := by
    rw [List.length_dropLast]
    omega
  have hdne : l.dropLast ≠ [] := by
    intro hd
    rw [hd] at hlen'
    simp at hlen'
    omega
  set l' := l.dropLast with hl'
  obtain ⟨p, hp⟩ : ∃ p, l'.getLast? = some p := by
    cases hlp : l'.getLast? with
    | none => exact absurd (List.getLast?_eq_none_iff.1 hlp) hdne
    | some p => exact ⟨p, rfl⟩
  have hchain : List.Chain' (fun a b => b ∈ m.neighbors a) (l' ++ [g]) := by
    have := h3
    rw [hsplit, hg] at this
    exact this
  rw [List.chain'_append] at hchain
  obtain ⟨hc1, _, hlink⟩ := hchain
  have hgp : g ∈ m.neighbors p := by
    apply hlink p _ g
    · simp
    · rw [hp]; rfl
  have hhead : l'.head? = some s := by
    have := h1
    conv at this => rw [hsplit]
    rw [List.head?_append_of_ne_nil _ hdne] at this
    exact this
  have hlast : l'.getLast? = some p := hp
  refine ⟨l', p, by rw [hg] at hsplit; exact hsplit, ⟨hhead, hlast, hc1⟩, hgp, hlen'⟩

/-! ## Sphere (exact BFS distance) lemmas -/

theorem reachIn_mono {m : Maze} {s g : Pos} {j k : Nat} (hjk : j ≤ k)
    (h : reachIn m s g j) : reachIn m s g k := by
  obtain ⟨l, hl, hlen⟩ := h
  exact ⟨l, hl, le_trans hlen (by omega)⟩

theorem reachIn_zero {m : Maze} {s g : Pos} : reachIn m s g 0 ↔ g = s := by
  constructor
  · rintro ⟨l, hl, hlen⟩
    cases l with
    | nil => exact absurd hl.1 (by simp)
    | cons a t =>
      cases t with
      | nil =>
        have ha : a = s := by
          have := hl.1
          simp only [List.head?_cons, Option.some.injEq] at this
          exact this
        have hg : a = g := by
          have := hl.2.1
          simp only [List.getLast?_singleton, Option.some.injEq] at this
          exact this
        rw [← hg]
        exact ha
      | cons b u =>
        exfalso
        simp only [List.length_cons] at hlen
        omega
  · intro h
    rw [h]
    exact ⟨[s], isPath_single m s, by simp⟩

theorem sphereAt_zero {m : Maze} {s g : Pos} : sphereAt m s g 0 ↔ g = s := by
  constructor
  · rintro ⟨h, _⟩; exact reachIn_zero.1 h
  · intro h
    rw [h]
    exact ⟨reachIn_zero.2 rfl, fun j hj => absurd hj (by omega)⟩

theorem sphereAt_unique {m : Maze} {s g : Pos} {j k : Nat}
    (hj : sphereAt m s g j) (hk : sphereAt m s g k) : j = k := by
  rcases Nat.lt_trichotomy j k with h | h | h
  · exact absurd hj.1 (hk.2 j h)
  · exact h
  · exact absurd hk.1 (hj.2 k h)

theorem reachIn_level {m : Maze} {s g : Pos} :
    ∀ k, reachIn m s g k → ∃ j, j ≤ k ∧ sphereAt m s g j := by
  intro k
  induction k using Nat.strong_induction_on with
  | _ k ih =>
    intro h
    by_cases hlow : ∃ j, j < k ∧ reachIn m s g j
    · obtain ⟨j, hjk, hj⟩ := hlow
      obtain ⟨i, hij, hi⟩ := ih j hjk hj
      exact ⟨i, by omega, hi⟩
    · push_neg at hlow
      exact ⟨k, le_refl k, h, fun j hj => hlow j hj⟩

theorem sphereAt_succ {m : Maze} {s g : Pos} {k : Nat} :
    sphereAt m s g (k + 1) ↔
      ¬ reachIn m s g k ∧ ∃ p, sphereAt m s p k ∧ g ∈ m.neighbors p := by
  constructor
  · rintro ⟨hr, hmin⟩
    have hnot : ¬ reachIn m s g k := hmin k (by omega)
    obtain ⟨l, hl, hlen⟩ := hr
    have hlen2 : 2 ≤ l.length := by
      by_contra hc
      push_neg at hc
      exact hnot ⟨l, hl, by omega⟩
    obtain ⟨l', p, _, hl', hgp, hlen'⟩ := isPath_split hl hlen2
    have hrp : reachIn m s p k := ⟨l', hl', by omega⟩
    obtain ⟨j, hjk, hj⟩ := reachIn_level k hrp
    rcases Nat.lt_or_ge j k with hlt | hge
    · exfalso
      apply hnot
      obtain ⟨lp, hlp, hlplen⟩ := hj.1
      exact ⟨lp ++ [g], isPath_extend hlp hgp, by
        rw [List.length_append]
        simp only [List.length_singleton]
        omega⟩
    · have : j = k := by omega
      rw [this] at hj
      exact ⟨hnot, p, hj, hgp⟩
  · rintro ⟨hnot, p, hp, hgp⟩
    obtain ⟨lp, hlp, hlplen⟩ := hp.1
    refine ⟨⟨lp ++ [g], isPath_extend hlp hgp, by
      rw [List.length_append]; simp only [List.length_singleton]; omega⟩, ?_⟩
    intro j hj
    intro hr
    exact hnot (reachIn_mono (by omega) hr)

theorem reachIn_succ_iff {m : Maze} {s g : Pos} {k : Nat} :
    reachIn m s g (k + 1) ↔ reachIn m s g k ∨ sphereAt m s g (k + 1) := by
  constructor
  · intro h
    obtain ⟨j, hjk, hj⟩ := reachIn_level (k + 1) h
    rcases Nat.lt_or_ge j (k + 1) with hlt | hge
    · exact Or.inl (reachIn_mono (by omega) hj.1)
    · have : j = k + 1 := by omega
      rw [this] at hj
      exact Or.inr hj
  · rintro (h | h)
    · exact reachIn_mono (by omega) h
    · exact h.1

theorem sphereAt_pred {m : Maze} {s g : Pos} {k : Nat}
    (h : sphereAt m s g (k + 1)) : ∃ p, sphereAt m s p k :=
  (sphereAt_succ.1 h).2.imp (fun _ hp => hp.1)

theorem sphereAt_occupied {m : Maze} {s : Pos} :
    ∀ k g, sphereAt m s g k → ∀ i, i ≤ k → ∃ p, sphereAt m s p i := by
  intro k
  induction k with
  | zero =>
    intro g h i hi
    have : i = 0 := by omega
    rw [this]
    exact ⟨g, h⟩
  | succ k ih =>
    intro g h i hi
    rcases Nat.lt_or_ge i (k + 1) with hlt | hge
    · obtain ⟨p, hp⟩ := sphereAt_pred h
      exact ih p hp i (by omega)
    · have : i = k + 1 := by omega
      rw [this]
      exact ⟨g, h⟩

theorem sphereAt_inBounds {m : Maze} {s g : Pos} {k : Nat}
    (hs : m.inBounds s = true) (h : sphereAt m s g k) : m.inBounds g = true := by
  cases k with
  | zero => rw [sphereAt_zero.1 h]; exact hs
  | succ k =>
    obtain ⟨_, p, _, hgp⟩ := sphereAt_succ.1 h
    exact neighbors_inBounds hgp

theorem reachable_sphere {m : Maze} {s g : Pos} (h : reachable m s g) :
    ∃ k, sphereAt m s g k := by
  obtain ⟨l, hl⟩ := h
  have : reachIn m s g l.length := ⟨l, hl, by omega⟩
  obtain ⟨j, _, hj⟩ := reachIn_level _ this
  exact ⟨j, hj⟩

/-! ## Predecessor-map lemmas -/

theorem lookupPred_append_some {a b : List (Pos × Pos)} {q r : Pos}
    (h : lookupPred a q = some r) : lookupPred (a ++ b) q = some r := by
  induction a with
  | nil => exact absurd h (by simp [lookupPred])
  | cons e rest ih =>
    simp only [lookupPred, List.cons_append] at h ⊢
    by_cases he : e.fst = q
    · rw [if_pos he] at h ⊢; exact h
    · rw [if_neg he] at h ⊢; exact ih h

theorem lookupPred_append_none {a b : List (Pos × Pos)} {q : Pos}
    (h : lookupPred a q = none) : lookupPred (a ++ b) q = lookupPred b q := by
  induction a with
  | nil => rfl
  | cons e rest ih =>
    simp only [lookupPred, List.cons_append] at h ⊢
    by_cases he : e.fst = q
    · rw [if_pos he] at h; exact absurd h (by simp)
    · rw [if_neg he] at h ⊢; exact ih h

theorem lookupPred_append_cases {a b : List (Pos × Pos)} {q r : Pos}
    (h : lookupPred (a ++ b) q = some r) :
    lookupPred a q = some r ∨ (lookupPred a q = none ∧ lookupPred b q = some r) := by
  cases ha : lookupPred a q with
  | none => exact Or.inr ⟨rfl, by rw [lookupPred_append_none ha] at h; exact h⟩
  | some x =>
    have h2 : lookupPred (a ++ b) q = some x := lookupPred_append_some ha
    rw [h2] at h
    injection h with hxr
    rw [← hxr]
    exact Or.inl rfl

theorem lookupPred_map_const {l : List Pos} {p q : Pos} :
    lookupPred (l.map (fun x => (x, p))) q = if q ∈ l then some p else none := by
  induction l with
  | nil => simp [lookupPred]
  | cons x rest ih =>
    simp only [List.map_cons, lookupPred, List.mem_cons]
    by_cases hx : x = q
    · rw [if_pos hx, if_pos (Or.inl hx.symm)]
    · rw [if_neg hx, ih]
      by_cases hq : q ∈ rest
      · rw [if_pos hq, if_pos (Or.inr hq)]
      · rw [if_neg hq, if_neg ?_]
        rintro (h | h)
        · exact hx h.symm
        · exact hq h

theorem lookupPred_mem {pr : List (Pos × Pos)} {q r : Pos}
    (h : lookupPred pr q = some r) : (q, r) ∈ pr := by
  induction pr with
  | nil => exact absurd h (by simp [lookupPred])
  | cons e rest ih =>
    simp only [lookupPred] at h
    by_cases he : e.fst = q
    · rw [if_pos he] at h
      cases h
      have he2 : (q, e.snd) = e := by
        rw [← he]
      rw [he2]
      exact List.mem_cons_self e rest
    · rw [if_neg he] at h
      exact List.mem_cons_of_mem _ (ih h)

/-! ## Frontier-expansion lemmas -/

theorem expandAux_fst_mem (m : Maze) (visited : List Pos) :
    ∀ (front accF : List Pos) (accP : List (Pos × Pos)) (q : Pos),
      q ∈ (expandAux m visited front accF accP).fst ↔
        q ∈ accF ∨ (¬ q ∈ visited ∧ ∃ p, p ∈ front ∧ q ∈ m.neighbors p) := by
  intro front
  induction front with
  | nil =>
    intro accF accP q
    simp [expandAux]
  | cons p rest ih =>
    intro accF accP q
    simp only [expandAux]
    rw [ih]
    simp only [List.mem_append, List.mem_filter, decide_eq_true_eq, List.mem_cons,
      exists_eq_or_imp]
    tauto

theorem expandAux_fst_nodup (m : Maze) (visited : List Pos) :
    ∀ (front accF : List Pos) (accP : List (Pos × Pos)),
      accF.Nodup → (expandAux m visited front accF accP).fst.Nodup := by
  intro front
  induction front with
  | nil =>
    intro accF accP h
    simpa [expandAux] using h
  | cons p rest ih =>
    intro accF accP h
    simp only [expandAux]
    apply ih
    apply List.Nodup.append h ((neighbors_nodup m p).filter _)
    intro a ha hfa
    have := List.mem_filter.1 hfa
    rw [decide_eq_true_eq] at this
    exact this.2.2 ha

theorem expandAux_keys (m : Maze) (visited : List Pos) :
    ∀ (front accF : List Pos) (accP : List (Pos × Pos)),
      (∀ q, q ∈ accF ↔ ∃ r, lookupPred accP q = some r) →
      ∀ q, q ∈ (expandAux m visited front accF accP).fst ↔
        ∃ r, lookupPred (expandAux m visited front accF accP).snd q = some r := by
  intro front
  induction front with
  | nil =>
    intro accF accP h q
    simpa [expandAux] using h q
  | cons p rest ih =>
    intro accF accP h q
    simp only [expandAux]
    apply ih
    intro x
    constructor
    · intro hx
      rcases List.mem_append.1 hx with hx | hx
      · obtain ⟨r, hr⟩ := (h x).1 hx
        exact ⟨r, lookupPred_append_some hr⟩
      · have hnx : ¬ x ∈ accF := by
          have := List.mem_filter.1 hx
          rw [decide_eq_true_eq] at this
          exact this.2.2
        have hnone : lookupPred accP x = none := by
          cases hl : lookupPred accP x with
          | none => rfl
          | some r => exact absurd ((h x).2 ⟨r, hl⟩) hnx
        refine ⟨p, ?_⟩
        rw [lookupPred_append_none hnone, lookupPred_map_const, if_pos hx]
    · rintro ⟨r, hr⟩
      rcases lookupPred_append_cases hr with hr' | ⟨hn, hr'⟩
      · exact List.mem_append.2 (Or.inl ((h x).2 ⟨r, hr'⟩))
      · rw [lookupPred_map_const] at hr'
        by_cases hx : x ∈ (m.neighbors p).filter (fun q => decide (¬ q ∈ visited ∧ ¬ q ∈ accF))
        · exact List.mem_append.2 (Or.inr hx)
        · rw [if_neg hx] at hr'
          exact absurd hr' (by simp)

theorem expandAux_snd_vals (m : Maze) (visited : List Pos) (P : Pos → Pos → Prop) :
    ∀ (front accF : List Pos) (accP : List (Pos × Pos)),
      (∀ q r, lookupPred accP q = some r → P q r) →
      (∀ p q, p ∈ front → q ∈ m.neighbors p → ¬ q ∈ visited → P q p) →
      ∀ q r, lookupPred (expandAux m visited front accF accP).snd q = some r → P q r := by
  intro front
  induction front with
  | nil =>
    intro accF accP hacc hfr q r h
    exact hacc q r (by simpa [expandAux] using h)
  | cons p rest ih =>
    intro accF accP hacc hfr q r h
    simp only [expandAux] at h
    refine ih _ _ ?_ ?_ q r h
    · intro x y hxy
      rcases lookupPred_append_cases hxy with h1 | ⟨hn, h1⟩
      · exact hacc x y h1
      · rw [lookupPred_map_const] at h1
        by_cases hx : x ∈ (m.neighbors p).filter (fun q => decide (¬ q ∈ visited ∧ ¬ q ∈ accF))
        · rw [if_pos hx] at h1
          cases h1
          have hf := List.mem_filter.1 hx
          rw [decide_eq_true_eq] at hf
          exact hfr p x (List.mem_cons_self p rest) hf.1 hf.2.1
        · rw [if_neg hx] at h1
          exact absurd h1 (by simp)
    · intro p' x hp' hx hv
      exact hfr p' x (List.mem_cons_of_mem _ hp') hx hv

/-! ## Trace relation: paths recorded in the predecessor map -/

theorem TracesTo.length_pos {preds : List (Pos × Pos)} {s q : Pos} {l : List Pos}
    (h : TracesTo preds s q l) : 1 ≤ l.length := by
  cases h with
  | base => simp
  | step p q l h hne hl => simp

theorem TracesTo.mono {preds preds' : List (Pos × Pos)} {s q : Pos} {l : List Pos}
    (hsub : ∀ x y, lookupPred preds x = some y → lookupPred preds' x = some y)
    (h : TracesTo preds s q l) : TracesTo preds' s q l := by
  induction h with
  | base => exact TracesTo.base
  | step p q l h hne hl ih => exact TracesTo.step p q l ih hne (hsub q p hl)

theorem traceBack_unfold (preds : List (Pos × Pos)) (start : Pos) (fuel : Nat) (p : Pos) :
    traceBack preds start fuel p =
      if p = start then some [start]
      else match fuel with
        | 0 => none
        | Nat.succ fuel' =>
          match lookupPred preds p with
          | none => none
          | some q =>
            match traceBack preds start fuel' q with
            | none => none
            | some l => some (l ++ [p]) := by
  cases fuel <;> rfl

theorem traceBack_succ (preds : List (Pos × Pos)) (start : Pos) (fuel' : Nat) (p : Pos) :
    traceBack preds start (fuel' + 1) p =
      if p = start then some [start]
      else
        match lookupPred preds p with
        | none => none
        | some q =>
          match traceBack preds start fuel' q with
          | none => none
          | some l => some (l ++ [p]) := rfl

theorem traceBack_of_tracesTo {preds : List (Pos × Pos)} {s q : Pos} {l : List Pos}
    (h : TracesTo preds s q l) :
    ∀ fuel, l.length ≤ fuel + 1 → traceBack preds s fuel q = some l := by
  induction h with
  | base =>
    intro fuel _
    rw [traceBack_unfold, if_pos rfl]
  | step p q l h hne hl ih =>
    intro fuel hlen
    have hlp : 1 ≤ l.length := h.length_pos
    rw [List.length_append, List.length_singleton] at hlen
    cases fuel with
    | zero => omega
    | succ fuel' =>
      rw [traceBack_succ, if_neg hne]
      simp only [hl, ih fuel' (by omega)]

/-! ## The BFS loop invariant -/

theorem loopInv_init (m : Maze) (s : Pos) : LoopInv m s 0 [s] [s] [] := by
  refine ⟨?_, ?_, ?_, ?_, ?_⟩
  · intro q
    simp only [List.mem_singleton]
    rw [reachIn_zero]
  · intro q
    simp only [List.mem_singleton]
    rw [sphereAt_zero]
  · simp
  · intro q r h
    exact absurd h (by simp [lookupPred])
  · intro q hq
    rw [List.mem_singleton] at hq
    rw [hq]
    refine ⟨[s], TracesTo.base, isPath_single m s, ?_⟩
    simpa using sphereAt_zero.2 rfl

theorem loopInv_step {m : Maze} {s : Pos} {k : Nat} {visited front : List Pos}
    {preds : List (Pos × Pos)} {nf : List Pos} {np : List (Pos × Pos)}
    (hex : expandAux m visited front [] [] = (nf, np))
    (hInv : LoopInv m s k visited front preds) :
    LoopInv m s (k + 1) (visited ++ nf) nf (preds ++ np) := by
  obtain ⟨hV, hF, hN, hP, hT⟩ := hInv
  have hfst : (expandAux m visited front [] []).fst = nf := by rw [hex]
  have hsnd : (expandAux m visited front [] []).snd = np := by rw [hex]
  have hs_mem : ∀ q, q ∈ nf ↔ sphereAt m s q (k + 1) := by
    intro q
    rw [← hfst, expandAux_fst_mem]
    simp only [List.not_mem_nil, false_or]
    rw [sphereAt_succ]
    constructor
    · rintro ⟨hnv, p, hp, hq⟩
      exact ⟨fun hr => hnv ((hV q).2 hr), p, (hF p).1 hp, hq⟩
    · rintro ⟨hnr, p, hp, hq⟩
      exact ⟨fun hv => hnr ((hV q).1 hv), p, (hF p).2 hp, hq⟩
  have hv_mem : ∀ q, q ∈ visited ++ nf ↔ reachIn m s q (k + 1) := by
    intro q
    rw [List.mem_append, hV q, hs_mem q]
    exact reachIn_succ_iff.symm
  have hnf_not_visited : ∀ q, q ∈ nf → ¬ q ∈ visited := by
    intro q hq hv
    exact (((hs_mem q).1 hq).2 k (by omega)) ((hV q).1 hv)
  have hsv : s ∈ visited := (hV s).2 (reachIn_mono (Nat.zero_le k) (reachIn_zero.2 rfl))
  have hkeys : ∀ q, q ∈ nf ↔ ∃ r, lookupPred np q = some r := by
    intro q
    rw [← hfst, ← hsnd]
    exact expandAux_keys m visited front [] [] (by simp [lookupPred]) q
  have hvals : ∀ q r, lookupPred np q = some r →
      r ∈ front ∧ q ∈ m.neighbors r ∧ ¬ q ∈ visited := by
    intro q r h
    refine expandAux_snd_vals m visited
      (fun x y => y ∈ front ∧ x ∈ m.neighbors y ∧ ¬ x ∈ visited) front [] [] ?_ ?_ q r ?_
    · intro x y hxy
      exact absurd hxy (by simp [lookupPred])
    · intro p x hp hx hv
      exact ⟨hp, hx, hv⟩
    · rw [hsnd]
      exact h
  refine ⟨hv_mem, hs_mem, ?_, ?_, ?_⟩
  · refine List.Nodup.append hN ?_ ?_
    · rw [← hfst]
      exact expandAux_fst_nodup m visited front [] [] List.nodup_nil
    · intro a ha hanf
      exact hnf_not_visited a hanf ha
  · intro q r h
    rcases lookupPred_append_cases h with h1 | ⟨hn1, h1⟩
    · obtain ⟨hqv, hqs⟩ := hP q r h1
      exact ⟨List.mem_append.2 (Or.inl hqv), hqs⟩
    · have hqnf : q ∈ nf := (hkeys q).2 ⟨r, h1⟩
      refine ⟨List.mem_append.2 (Or.inr hqnf), ?_⟩
      intro hqeq
      rw [hqeq] at hqnf
      exact hnf_not_visited s hqnf hsv
  · intro q hq
    have hsub : ∀ x y, lookupPred preds x = some y → lookupPred (preds ++ np) x = some y :=
      fun x y h => lookupPred_append_some h
    rcases List.mem_append.1 hq with hq | hq
    · obtain ⟨l, htr, hip, hsp⟩ := hT q hq
      exact ⟨l, htr.mono hsub, hip, hsp⟩
    · have hsq : sphereAt m s q (k + 1) := (hs_mem q).1 hq
      have hqnv : ¬ q ∈ visited := hnf_not_visited q hq
      have hnone : lookupPred preds q = none := by
        cases hl : lookupPred preds q with
        | none => rfl
        | some r => exact absurd (hP q r hl).1 hqnv
      obtain ⟨r, hr⟩ : ∃ r, lookupPred np q = some r := (hkeys q).1 hq
      obtain ⟨hrf, hqr, _⟩ := hvals q r hr
      have hrv : r ∈ visited := (hV r).2 ((hF r).1 hrf).1
      obtain ⟨lr, htr, hip, hsp⟩ := hT r hrv
      have hrk : lr.length - 1 = k := sphereAt_unique hsp ((hF r).1 hrf)
      have hlrpos := isPath_length_pos hip
      have hqs : q ≠ s := by
        intro hqeq
        rw [hqeq] at hqnv
        exact hqnv hsv
      refine ⟨lr ++ [q], ?_, isPath_extend hip hqr, ?_⟩
      · refine TracesTo.step r q lr (htr.mono hsub) hqs ?_
        rw [lookupPred_append_none hnone]
        exact hr
      · have hlen : (lr ++ [q]).length - 1 = k + 1 := by
          rw [List.length_append, List.length_singleton]
          omega
        rw [hlen]
        exact hsq

/-! ## BFS loop main lemmas -/

theorem bfsLoop_zero (m : Maze) (goal : Pos) (visited front : List Pos)
    (preds : List (Pos × Pos)) :
    bfsLoop m goal 0 visited front preds =
      if goal ∈ front then (some preds, visited) else (none, visited) := rfl

theorem bfsLoop_succ (m : Maze) (goal : Pos) (fuel' : Nat) (visited front : List Pos)
    (preds : List (Pos × Pos)) :
    bfsLoop m goal (fuel' + 1) visited front preds =
      if goal ∈ front then (some preds, visited)
      else
        if (expandAux m visited front [] []).fst = [] then (none, visited)
        else bfsLoop m goal fuel' (visited ++ (expandAux m visited front [] []).fst)
          (expandAux m visited front [] []).fst
          (preds ++ (expandAux m visited front [] []).snd) := rfl

theorem loopInv_found {m : Maze} {s goal : Pos} {k : Nat} {visited front : List Pos}
    {preds : List (Pos × Pos)} (hInv : LoopInv m s k visited front preds)
    (hg : goal ∈ front) :
    ∃ l, sphereAt m s goal k ∧ TracesTo preds s goal l ∧ isPath m s goal l ∧
      l.length = k + 1 := by
  obtain ⟨hV, hF, hN, hP, hT⟩ := hInv
  have hsg : sphereAt m s goal k := (hF goal).1 hg
  have hgv : goal ∈ visited := (hV goal).2 hsg.1
  obtain ⟨l, htr, hip, hsp⟩ := hT goal hgv
  have hlk : l.length - 1 = k := sphereAt_unique hsp hsg
  have hlp := isPath_length_pos hip
  exact ⟨l, hsg, htr, hip, by omega⟩

theorem bfsLoop_found {m : Maze} {s goal : Pos} :
    ∀ (fuel : Nat) (visited front : List Pos) (preds : List (Pos × Pos)) (k : Nat),
      LoopInv m s k visited front preds →
      ∀ preds', (bfsLoop m goal fuel visited front preds).fst = some preds' →
      ∃ k' l, sphereAt m s goal k' ∧ TracesTo preds' s goal l ∧ isPath m s goal l ∧
        l.length = k' + 1 := by
  intro fuel
  induction fuel with
  | zero =>
    intro visited front preds k hInv preds' h
    rw [bfsLoop_zero] at h
    by_cases hg : goal ∈ front
    · rw [if_pos hg] at h
      simp only at h
      injection h with h
      obtain ⟨l, h1, h2, h3, h4⟩ := loopInv_found hInv hg
      rw [← h]
      exact ⟨k, l, h1, h2, h3, h4⟩
    · rw [if_neg hg] at h
      exact absurd h (by simp)
  | succ fuel' ih =>
    intro visited front preds k hInv preds' h
    rw [bfsLoop_succ] at h
    by_cases hg : goal ∈ front
    · rw [if_pos hg] at h
      simp only at h
      injection h with h
      obtain ⟨l, h1, h2, h3, h4⟩ := loopInv_found hInv hg
      rw [← h]
      exact ⟨k, l, h1, h2, h3, h4⟩
    · rw [if_neg hg] at h
      cases hex : expandAux m visited front [] [] with
      | mk nf np =>
        rw [hex] at h
        simp only at h
        by_cases hnf : nf = []
        · rw [if_pos hnf] at h
          exact absurd h (by simp)
        · rw [if_neg hnf] at h
          exact ih _ _ _ (k + 1) (loopInv_step hex hInv) preds' h

theorem bfsLoop_progress {m : Maze} {s goal : Pos} :
    ∀ (j fuel : Nat), j ≤ fuel →
      ∀ (visited front : List Pos) (preds : List (Pos × Pos)) (k : Nat),
        LoopInv m s k visited front preds →
        sphereAt m s goal (k + j) →
        ∃ preds', (bfsLoop m goal fuel visited front preds).fst = some preds' := by
  intro j
  induction j with
  | zero =>
    intro fuel _ visited front preds k hInv hsg
    have hg : goal ∈ front := (hInv.2.1 goal).2 (by simpa using hsg)
    cases fuel with
    | zero =>
      rw [bfsLoop_zero, if_pos hg]
      exact ⟨preds, rfl⟩
    | succ fuel' =>
      rw [bfsLoop_succ, if_pos hg]
      exact ⟨preds, rfl⟩
  | succ j ih =>
    intro fuel hjf visited front preds k hInv hsg
    by_cases hg : goal ∈ front
    · cases fuel with
      | zero =>
        rw [bfsLoop_zero, if_pos hg]
        exact ⟨preds, rfl⟩
      | succ fuel' =>
        rw [bfsLoop_succ, if_pos hg]
        exact ⟨preds, rfl⟩
    · cases fuel with
      | zero => omega
      | succ fuel' =>
        rw [bfsLoop_succ, if_neg hg]
        cases hex : expandAux m visited front [] [] with
        | mk nf np =>
          simp only
          have hInv' := loopInv_step hex hInv
          have hnf : ¬ nf = [] := by
            obtain ⟨pm, hpm⟩ := sphereAt_occupied (k + (j + 1)) goal hsg (k + 1) (by omega)
            intro hnil
            have hmem := (hInv'.2.1 pm).2 hpm
            rw [hnil] at hmem
            exact absurd hmem (List.not_mem_nil pm)
          rw [if_neg hnf]
          have hsg' : sphereAt m s goal ((k + 1) + j) := by
            have harith : (k + 1) + j = k + (j + 1) := by omega
            rw [harith]
            exact hsg
          exact ih fuel' (by omega) _ _ _ (k + 1) hInv' hsg'

/-! ## Cardinality: distances and visited cells are bounded by the cell count -/

theorem inBounds_spec {m : Maze} {p : Pos} (h : m.inBounds p = true) :
    p.row < m.height ∧ p.col < m.width := by
  unfold Maze.inBounds at h
  rw [Bool.and_eq_true, decide_eq_true_eq, decide_eq_true_eq] at h
  exact h

theorem encodePos_lt {m : Maze} {p : Pos} (h : m.inBounds p = true) :
    encodePos m.width p < m.width * m.height := by
  obtain ⟨hr, hc⟩ := inBounds_spec h
  unfold encodePos
  calc m.width * p.row + p.col < m.width * p.row + m.width := by omega
    _ = m.width * (p.row + 1) := by rw [Nat.mul_succ]
    _ ≤ m.width * m.height := Nat.mul_le_mul_left _ (by omega)

theorem encodePos_inj {m : Maze} {p q : Pos} (hp : m.inBounds p = true)
    (hq : m.inBounds q = true) (h : encodePos m.width p = encodePos m.width q) :
    p = q := by
  obtain ⟨hr, hc⟩ := inBounds_spec hp
  obtain ⟨hr', hc'⟩ := inBounds_spec hq
  unfold encodePos at h
  have hw : 0 < m.width := by omega
  have e1 : (m.width * p.row + p.col) / m.width = p.row := by
    rw [Nat.mul_add_div hw, Nat.div_eq_of_lt hc, Nat.add_zero]
  have e2 : (m.width * q.row + q.col) / m.width = q.row := by
    rw [Nat.mul_add_div hw, Nat.div_eq_of_lt hc', Nat.add_zero]
  have hrow : p.row = q.row := by
    rw [← e1, ← e2, h]
  have hcol : p.col = q.col := by
    rw [hrow] at h
    omega
  cases p
  cases q
  simp only [Pos.mk.injEq]
  exact ⟨hrow, hcol⟩

theorem sphereAt_level_lt {m : Maze} {s g : Pos} {d : Nat}
    (hs : m.inBounds s = true) (hd : sphereAt m s g d) :
    d < m.width * m.height := by
  have hocc : ∀ i : Fin (d + 1), ∃ p, sphereAt m s p i.val :=
    fun i => sphereAt_occupied d g hd i.val (by omega)
  have hlt : ∀ i : Fin (d + 1),
      encodePos m.width (Classical.choose (hocc i)) < m.width * m.height := by
    intro i
    exact encodePos_lt (sphereAt_inBounds hs (Classical.choose_spec (hocc i)))
  have hinj : Function.Injective
      (fun i : Fin (d + 1) =>
        (⟨encodePos m.width (Classical.choose (hocc i)), hlt i⟩ :
          Fin (m.width * m.height))) := by
    intro i j hij
    simp only [Fin.mk.injEq] at hij
    have hpq := encodePos_inj
      (sphereAt_inBounds hs (Classical.choose_spec (hocc i)))
      (sphereAt_inBounds hs (Classical.choose_spec (hocc j))) hij
    have hi := Classical.choose_spec (hocc i)
    have hj := Classical.choose_spec (hocc j)
    rw [hpq] at hi
    have := sphereAt_unique hi hj
    exact Fin.ext this
  have hcard := Fintype.card_le_of_injective _ hinj
  simp only [Fintype.card_fin] at hcard
  omega

theorem nodup_inBounds_length_le {m : Maze} {l : List Pos}
    (hn : l.Nodup) (hb : ∀ p, p ∈ l → m.inBounds p = true) :
    l.length ≤ m.width * m.height := by
  have hmn : (l.map (encodePos m.width)).Nodup := by
    refine List.Nodup.map_on ?_ hn
    intro x hx y hy hxy
    exact encodePos_inj (hb x hx) (hb y hy) hxy
  have hsub : (l.map (encodePos m.width)).toFinset ⊆ Finset.range (m.width * m.height) := by
    intro n hnmem
    rw [List.mem_toFinset] at hnmem
    obtain ⟨p, hp, hpe⟩ := List.mem_map.1 hnmem
    rw [Finset.mem_range, ← hpe]
    exact encodePos_lt (hb p hp)
  have hcard := Finset.card_le_card hsub
  rw [List.toFinset_card_of_nodup hmn, Finset.card_range, List.length_map] at hcard
  exact hcard

theorem bfsLoop_visited_sound {m : Maze} {goal : Pos} :
    ∀ (fuel : Nat) (visited front : List Pos) (preds : List (Pos × Pos)),
      visited.Nodup → (∀ p, p ∈ visited → m.inBounds p = true) →
      (∀ p, p ∈ front → ∀ q, q ∈ m.neighbors p → q ∈ visited ∨ m.inBounds q = true) →
      (bfsLoop m goal fuel visited front preds).snd.Nodup ∧
        ∀ p, p ∈ (bfsLoop m goal fuel visited front preds).snd →
          m.inBounds p = true := by
  intro fuel
  induction fuel with
  | zero =>
    intro visited front preds hn hb _
    rw [bfsLoop_zero]
    by_cases hg : goal ∈ front
    · rw [if_pos hg]
      exact ⟨hn, hb⟩
    · rw [if_neg hg]
      exact ⟨hn, hb⟩
  | succ fuel' ih =>
    intro visited front preds hn hb hfr
    rw [bfsLoop_succ]
    by_cases hg : goal ∈ front
    · rw [if_pos hg]
      exact ⟨hn, hb⟩
    · rw [if_neg hg]
      cases hex : expandAux m visited front [] [] with
      | mk nf np =>
        simp only
        by_cases hnf : nf = []
        · rw [if_pos hnf]
          exact ⟨hn, hb⟩
        · rw [if_neg hnf]
          have hfst : (expandAux m visited front [] []).fst = nf := by rw [hex]
          have hnfmem : ∀ q, q ∈ nf →
              ¬ q ∈ visited ∧ ∃ p, p ∈ front ∧ q ∈ m.neighbors p := by
            intro q hq
            rw [← hfst] at hq
            have := (expandAux_fst_mem m visited front [] [] q).1 hq
            simpa using this
          have hnb : ∀ q, q ∈ nf → m.inBounds q = true := by
            intro q hq
            obtain ⟨hnv, p, hp, hqn⟩ := hnfmem q hq
            exact neighbors_inBounds hqn
          apply ih
          · refine List.Nodup.append hn ?_ ?_
            · rw [← hfst]
              exact expandAux_fst_nodup m visited front [] [] List.nodup_nil
            · intro a ha hanf
              exact (hnfmem a hanf).1 ha
          · intro p hp
            rcases List.mem_append.1 hp with hp | hp
            · exact hb p hp
            · exact hnb p hp
          · intro p hp q hq
            exact Or.inr (neighbors_inBounds hq)

/-! ## Master theorems about the Path Search Engine -/

theorem search_spec {m : Maze} {s g : Pos}
    (hs : m.inBounds s = true) (hr : reachable m s g) :
    ∃ p, m.search s g = Except.ok p ∧ isPath m s g p ∧
      ∀ l, isPath m s g l → p.length ≤ l.length := by
  obtain ⟨d, hd⟩ := reachable_sphere hr
  have hg : m.inBounds g = true := sphereAt_inBounds hs hd
  have hdlt : d < m.width * m.height := sphereAt_level_lt hs hd
  obtain ⟨preds', hfound⟩ := bfsLoop_progress d (m.width * m.height) (by omega)
    [s] [s] [] 0 (loopInv_init m s) (by simpa using hd)
  obtain ⟨k', l, hk'sp, htr, hip, hlen⟩ := bfsLoop_found (m.width * m.height)
    [s] [s] [] 0 (loopInv_init m s) preds' hfound
  have hk'd : k' = d := sphereAt_unique hk'sp hd
  have htb : traceBack preds' s (m.width * m.height) g = some l :=
    traceBack_of_tracesTo htr _ (by omega)
  refine ⟨l, ?_, hip, ?_⟩
  · unfold Maze.search
    rw [if_pos hs, if_pos hg]
    simp only [hfound, htb]
  · intro l' hl'
    by_contra hc
    push_neg at hc
    have hlp' := isPath_length_pos hl'
    have hri : reachIn m s g (l'.length - 1) := ⟨l', hl', by omega⟩
    exact hd.2 (l'.length - 1) (by omega) hri

theorem search_ok_path {m : Maze} {s g : Pos} {p : List Pos}
    (h : m.search s g = Except.ok p) :
    m.inBounds s = true ∧ m.inBounds g = true ∧ isPath m s g p ∧
      ∀ l, isPath m s g l → p.length ≤ l.length := by
  unfold Maze.search at h
  by_cases hs : m.inBounds s = true
  · rw [if_pos hs] at h
    by_cases hg : m.inBounds g = true
    · rw [if_pos hg] at h
      cases hb : (bfsLoop m g (m.width * m.height) [s] [s] []).fst with
      | none =>
        rw [hb] at h
        exact absurd h (by simp)
      | some preds' =>
        rw [hb] at h
        obtain ⟨k', l, hk'sp, htr, hip, hlen⟩ := bfsLoop_found (m.width * m.height)
          [s] [s] [] 0 (loopInv_init m s) preds' hb
        have hklt : k' < m.width * m.height := sphereAt_level_lt hs hk'sp
        have htb : traceBack preds' s (m.width * m.height) g = some l :=
          traceBack_of_tracesTo htr _ (by omega)
        simp only [htb] at h
        injection h with h
        rw [← h]
        refine ⟨hs, hg, hip, ?_⟩
        intro l' hl'
        by_contra hc
        push_neg at hc
        have hlp' := isPath_length_pos hl'
        have hri : reachIn m s g (l'.length - 1) := ⟨l', hl', by omega⟩
        exact hk'sp.2 (l'.length - 1) (by omega) hri
    · rw [if_neg hg] at h
      exact absurd h (by simp)
  · rw [if_neg hs] at h
    exact absurd h (by simp)

theorem search_unreachable {m : Maze} {s g : Pos}
    (hs : m.inBounds s = true) (hg : m.inBounds g = true)
    (hr : ¬ reachable m s g) :
    m.search s g = Except.error SearchErr.NoPathExists := by
  unfold Maze.search
  rw [if_pos hs, if_pos hg]
  cases hb : (bfsLoop m g (m.width * m.height) [s] [s] []).fst with
  | none => rfl
  | some preds' =>
    exfalso
    obtain ⟨k', l, hk'sp, htr, hip, hlen⟩ := bfsLoop_found (m.width * m.height)
      [s] [s] [] 0 (loopInv_init m s) preds' hb
    exact hr ⟨l, hip⟩

theorem searchVisited_bound {m : Maze} {s g : Pos} (hs : m.inBounds s = true) :
    (m.searchVisited s g).length ≤ m.width * m.height := by
  unfold Maze.searchVisited
  obtain ⟨hn, hb⟩ := bfsLoop_visited_sound (m.width * m.height) [s] [s] []
    (by simp) (by intro p hp; rw [List.mem_singleton] at hp; rw [hp]; exact hs)
    (by intro p _ q hq; exact Or.inr (neighbors_inBounds hq))
  exact nodup_inBounds_length_le hn hb

/-! ## Maze Loader lemmas -/

theorem mem_gridPositions {w h : Nat} {p : Pos} :
    p ∈ gridPositions w h ↔ p.row < h ∧ p.col < w := by
  unfold gridPositions
  rw [List.mem_map]
  constructor
  · rintro ⟨rc, hrc, rfl⟩
    have := List.mem_product.1 hrc
    simpa [List.mem_range] using this
  · rintro ⟨hr, hc⟩
    refine ⟨(p.row, p.col), ?_, rfl⟩
    rw [List.mem_product]
    simp [List.mem_range, hr, hc]

theorem gridPositions_nodup (w h : Nat) : (gridPositions w h).Nodup := by
  unfold gridPositions
  refine List.Nodup.map ?_ (List.Nodup.product (List.nodup_range h) (List.nodup_range w))
  intro x y hxy
  cases x
  cases y
  simpa using hxy

theorem gridPositions_length (w h : Nat) : (gridPositions w h).length = h * w := by
  unfold gridPositions
  rw [List.length_map, List.length_product, List.length_range, List.length_range]

theorem parseRecords_ok_forall₂ :
    ∀ (idx : Nat) (rs : List (List (String × JVal))) (bs : List Block),
      parseRecords idx rs = Except.ok bs →
      List.Forall₂ (fun r b => parseRecord r = some b) rs bs := by
  intro idx rs
  induction rs generalizing idx with
  | nil =>
    intro bs h
    simp only [parseRecords] at h
    injection h with h
    rw [← h]
    exact List.Forall₂.nil
  | cons r rest ih =>
    intro bs h
    simp only [parseRecords] at h
    cases hp : parseRecord r with
    | none =>
      rw [hp] at h
      exact absurd h (by simp)
    | some b =>
      rw [hp] at h
      cases hrest : parseRecords (idx + 1) rest with
      | error e =>
        rw [hrest] at h
        exact absurd h (by simp)
      | ok bs' =>
        rw [hrest] at h
        simp only at h
        injection h with h
        rw [← h]
        exact List.Forall₂.cons hp (ih (idx + 1) bs' hrest)

theorem parseRecords_malformed :
    ∀ (idx : Nat) (rs : List (List (String × JVal))),
      (∃ r, r ∈ rs ∧ parseRecord r = none) →
      ∃ j, parseRecords idx rs = Except.error (LoadErr.MalformedRecord j) := by
  intro idx rs
  induction rs generalizing idx with
  | nil =>
    rintro ⟨r, hr, _⟩
    exact absurd hr (List.not_mem_nil r)
  | cons r rest ih =>
    rintro ⟨x, hx, hxp⟩
    simp only [parseRecords]
    cases hp : parseRecord r with
    | none => exact ⟨idx, rfl⟩
    | some b =>
      have hxrest : x ∈ rest := by
        rcases List.mem_cons.1 hx with hx1 | hx1
        · rw [hx1] at hxp
          rw [hxp] at hp
          exact absurd hp (by simp)
        · exact hx1
      obtain ⟨j, hj⟩ := ih (idx + 1) ⟨x, hxrest, hxp⟩
      rw [hj]
      exact ⟨j, rfl⟩

theorem findDupPos_none_iff :
    ∀ bs : List Block, findDupPos bs = none ↔ (bs.map Block.pos).Nodup := by
  intro bs
  induction bs with
  | nil => simp [findDupPos]
  | cons b rest ih =>
    simp only [findDupPos, List.map_cons, List.nodup_cons]
    by_cases ha : rest.any (fun c => decide (c.pos = b.pos)) = true
    · rw [if_pos ha]
      simp only [List.any_eq_true, decide_eq_true_eq] at ha
      obtain ⟨c, hc, hcp⟩ := ha
      constructor
      · intro h
        exact absurd h (by simp)
      · rintro ⟨hmem, _⟩
        exfalso
        apply hmem
        rw [List.mem_map]
        exact ⟨c, hc, hcp⟩
    · rw [if_neg ha]
      rw [ih]
      simp only [List.any_eq_true, decide_eq_true_eq] at ha
      push_neg at ha
      constructor
      · intro h
        refine ⟨?_, h⟩
        rw [List.mem_map]
        rintro ⟨c, hc, hcp⟩
        exact ha c hc hcp
      · rintro ⟨_, h⟩
        exact h

theorem findMissingPos_none_iff {w h : Nat} {bs : List Block} :
    findMissingPos w h bs = none ↔
      ∀ p : Pos, p.row < h → p.col < w → ∃ b, b ∈ bs ∧ b.pos = p := by
  unfold findMissingPos
  rw [List.find?_eq_none]
  constructor
  · intro hf p hr hc
    have := hf p (mem_gridPositions.2 ⟨hr, hc⟩)
    simp only [Bool.not_eq_true', Bool.not_eq_false, List.any_eq_true,
      decide_eq_true_eq] at this
    obtain ⟨b, hb, hbp⟩ := this
    exact ⟨b, hb, hbp⟩
  · intro hcov p hp
    obtain ⟨hr, hc⟩ := mem_gridPositions.1 hp
    obtain ⟨b, hb, hbp⟩ := hcov p hr hc
    simp only [Bool.not_eq_true', Bool.not_eq_false, List.any_eq_true, decide_eq_true_eq]
    exact ⟨b, hb, hbp⟩

theorem findOobBlock_none_iff {w h : Nat} {bs : List Block} :
    findOobBlock w h bs = none ↔
      ∀ b, b ∈ bs → b.pos.row < h ∧ b.pos.col < w := by
  unfold findOobBlock
  cases hf : bs.find? (fun b => !(decide (b.pos.row < h) && decide (b.pos.col < w))) with
  | some b =>
    simp only
    constructor
    · intro hc
      exact absurd hc (by simp)
    · intro hall
      exfalso
      have hmem := List.mem_of_find?_eq_some hf
      have hpred := List.find?_some hf
      obtain ⟨hr, hc⟩ := hall b hmem
      simp [hr, hc] at hpred
  | none =>
    simp only
    rw [List.find?_eq_none] at hf
    constructor
    · intro _ b hb
      have := hf b hb
      simp only [Bool.not_eq_true', Bool.not_eq_false, Bool.and_eq_true,
        decide_eq_true_eq] at this
      exact this
    · intro _
      trivial

theorem blocks_count {w h : Nat} {bs : List Block}
    (hn : (bs.map Block.pos).Nodup)
    (hcov : ∀ p : Pos, p.row < h → p.col < w → ∃ b, b ∈ bs ∧ b.pos = p)
    (hin : ∀ b, b ∈ bs → b.pos.row < h ∧ b.pos.col < w) :
    bs.length = w * h := by
  have hset : (bs.map Block.pos).toFinset = (gridPositions w h).toFinset := by
    apply Finset.ext
    intro p
    rw [List.mem_toFinset, List.mem_toFinset, List.mem_map, mem_gridPositions]
    constructor
    · rintro ⟨b, hb, rfl⟩
      exact hin b hb
    · rintro ⟨hr, hc⟩
      obtain ⟨b, hb, hbp⟩ := hcov p hr hc
      exact ⟨b, hb, hbp⟩
  have h1 : (bs.map Block.pos).toFinset.card = bs.length := by
    rw [List.toFinset_card_of_nodup hn, List.length_map]
  have h2 : (gridPositions w h).toFinset.card = h * w := by
    rw [List.toFinset_card_of_nodup (gridPositions_nodup w h), gridPositions_length]
  rw [hset, h2] at h1
  rw [← h1]
  exact Nat.mul_comm h w

theorem eastViolation_iff {m : Maze} {a : Pos} :
    eastViolation m a = true ↔ eastViolates m a := by
  unfold eastViolation eastViolates
  cases h1 : m.cell a with
  | error e =>
    simp only
    constructor
    · intro hc
      exact absurd hc (by simp)
    · rintro ⟨ba, bb, hba, _⟩
      exact absurd hba (by simp)
  | ok ba =>
    cases h2 : m.cell ⟨a.row, a.col + 1⟩ with
    | error e =>
      simp only
      constructor
      · intro hc
        exact absurd hc (by simp)
      · rintro ⟨ba', bb, _, hbb, _⟩
        exact absurd hbb (by simp)
    | ok bb =>
      simp only [Bool.not_eq_true', Bool.not_eq_false]
      constructor
      · intro hne
        refine ⟨ba, bb, rfl, rfl, ?_⟩
        rw [decide_eq_false_iff_not] at hne
        exact hne
      · rintro ⟨ba', bb', hba, hbb, hne⟩
        injection hba with hba
        injection hbb with hbb
        rw [decide_eq_false_iff_not]
        rw [← hba, ← hbb] at hne
        exact hne

theorem southViolation_iff {m : Maze} {a : Pos} :
    southViolation m a = true ↔ southViolates m a := by
  unfold southViolation southViolates
  cases h1 : m.cell a with
  | error e =>
    simp only
    constructor
    · intro hc
      exact absurd hc (by simp)
    · rintro ⟨ba, bb, hba, _⟩
      exact absurd hba (by simp)
  | ok ba =>
    cases h2 : m.cell ⟨a.row + 1, a.col⟩ with
    | error e =>
      simp only
      constructor
      · intro hc
        exact absurd hc (by simp)
      · rintro ⟨ba', bb, _, hbb, _⟩
        exact absurd hbb (by simp)
    | ok bb =>
      simp only [Bool.not_eq_true', Bool.not_eq_false]
      constructor
      · intro hne
        refine ⟨ba, bb, rfl, rfl, ?_⟩
        rw [decide_eq_false_iff_not] at hne
        exact hne
      · rintro ⟨ba', bb', hba, hbb, hne⟩
        injection hba with hba
        injection hbb with hbb
        rw [decide_eq_false_iff_not]
        rw [← hba, ← hbb] at hne
        exact hne

theorem cell_ok_inBounds {m : Maze} {p : Pos} {b : Block}
    (h : m.cell p = Except.ok b) : m.inBounds p = true := by
  unfold Maze.cell at h
  by_cases hb : m.inBounds p = true
  · exact hb
  · rw [if_neg hb] at h
    exact absurd h (by simp)

theorem mem_wallViolations {m : Maze} {e : WallEdge} :
    e ∈ wallViolations m ↔ violatingEdge m e := by
  unfold wallViolations
  rw [List.mem_flatMap]
  constructor
  · rintro ⟨p, hp, hep⟩
    rcases List.mem_append.1 hep with hep | hep
    · by_cases hev : eastViolation m p = true
      · rw [if_pos hev] at hep
        rw [List.mem_singleton] at hep
        rw [hep]
        exact Or.inl ⟨rfl, eastViolation_iff.1 hev⟩
      · rw [if_neg hev] at hep
        exact absurd hep (List.not_mem_nil e)
    · by_cases hsv : southViolation m p = true
      · rw [if_pos hsv] at hep
        rw [List.mem_singleton] at hep
        rw [hep]
        exact Or.inr ⟨rfl, southViolation_iff.1 hsv⟩
      · rw [if_neg hsv] at hep
        exact absurd hep (List.not_mem_nil e)
  · rintro (⟨hb, hv⟩ | ⟨hb, hv⟩)
    · refine ⟨e.a, ?_, ?_⟩
      · obtain ⟨ba, _, hba, _⟩ := hv
        have := inBounds_spec (cell_ok_inBounds hba)
        exact mem_gridPositions.2 this
      · apply List.mem_append.2 (Or.inl ?_)
        rw [if_pos (eastViolation_iff.2 hv)]
        rw [List.mem_singleton]
        cases e
        simp only at hb
        rw [hb]
    · refine ⟨e.a, ?_, ?_⟩
      · obtain ⟨ba, _, hba, _⟩ := hv
        have := inBounds_spec (cell_ok_inBounds hba)
        exact mem_gridPositions.2 this
      · apply List.mem_append.2 (Or.inr ?_)
        rw [if_pos (southViolation_iff.2 hv)]
        rw [List.mem_singleton]
        cases e
        simp only at hb
        rw [hb]

/-! ## Loader behavior lemmas -/

theorem load_malformed {inp : MazeInput}
    (h : ∃ r, r ∈ inp.blocks ∧ parseRecord r = none) :
    ∃ j, load inp = Except.error (LoadErr.MalformedRecord j) := by
  obtain ⟨j, hj⟩ := parseRecords_malformed 0 inp.blocks h
  refine ⟨j, ?_⟩
  unfold load
  simp only [hj]

theorem load_duplicate {inp : MazeInput} {bs : List Block}
    (hp : parseRecords 0 inp.blocks = Except.ok bs)
    (hd : ¬ (bs.map Block.pos).Nodup) :
    ∃ p, load inp = Except.error (LoadErr.DuplicateCell p) := by
  cases hdp : findDupPos bs with
  | none => exact absurd ((findDupPos_none_iff bs).1 hdp) hd
  | some p =>
    refine ⟨p, ?_⟩
    unfold load
    simp only [hp, hdp]

theorem load_missing {inp : MazeInput} {bs : List Block}
    (hp : parseRecords 0 inp.blocks = Except.ok bs)
    (hd : (bs.map Block.pos).Nodup)
    (hm : ∃ p : Pos, p.row < inp.height ∧ p.col < inp.width ∧
      ∀ b, b ∈ bs → ¬ b.pos = p) :
    ∃ p, load inp = Except.error (LoadErr.MissingCell p) := by
  have hdp : findDupPos bs = none := (findDupPos_none_iff bs).2 hd
  cases hms : findMissingPos inp.width inp.height bs with
  | none =>
    exfalso
    obtain ⟨p, hr, hc, hnone⟩ := hm
    obtain ⟨b, hb, hbp⟩ := findMissingPos_none_iff.1 hms p hr hc
    exact hnone b hb hbp
  | some p =>
    refine ⟨p, ?_⟩
    unfold load
    simp only [hp, hdp, hms]

theorem load_inconsistent {inp : MazeInput} {bs : List Block}
    (hp : parseRecords 0 inp.blocks = Except.ok bs)
    (hd : findDupPos bs = none)
    (hms : findMissingPos inp.width inp.height bs = none)
    (hob : findOobBlock inp.width inp.height bs = none)
    (hwv : wallViolations ⟨inp.width, inp.height, bs⟩ ≠ []) :
    load inp = Except.error
      (LoadErr.InconsistentWalls (wallViolations ⟨inp.width, inp.height, bs⟩)) := by
  unfold load
  simp only [hp, hd, hms, hob]
  cases hwv2 : wallViolations ⟨inp.width, inp.height, bs⟩ with
  | nil => exact absurd hwv2 hwv
  | cons e es => simp only

theorem load_ok_inv {inp : MazeInput} {m : Maze} (h : load inp = Except.ok m) :
    ∃ bs, parseRecords 0 inp.blocks = Except.ok bs ∧
      m = ⟨inp.width, inp.height, bs⟩ ∧
      (bs.map Block.pos).Nodup ∧
      (∀ p : Pos, p.row < inp.height → p.col < inp.width → ∃ b, b ∈ bs ∧ b.pos = p) ∧
      (∀ b, b ∈ bs → b.pos.row < inp.height ∧ b.pos.col < inp.width) ∧
      wallViolations m = [] := by
  unfold load at h
  cases hp : parseRecords 0 inp.blocks with
  | error e =>
    rw [hp] at h
    exact absurd h (by simp)
  | ok bs =>
    simp only [hp] at h
    cases hdp : findDupPos bs with
    | some p =>
      simp only [hdp] at h
      exact absurd h (by simp)
    | none =>
      simp only [hdp] at h
      cases hms : findMissingPos inp.width inp.height bs with
      | some p =>
        simp only [hms] at h
        exact absurd h (by simp)
      | none =>
        simp only [hms] at h
        cases hob : findOobBlock inp.width inp.height bs with
        | some p =>
          simp only [hob] at h
          exact absurd h (by simp)
        | none =>
          simp only [hob] at h
          cases hwv : wallViolations ⟨inp.width, inp.height, bs⟩ with
          | cons e es =>
            simp only [hwv] at h
            exact absurd h (by simp)
          | nil =>
            simp only [hwv] at h
            injection h with h
            refine ⟨bs, rfl, h.symm, (findDupPos_none_iff bs).1 hdp,
              findMissingPos_none_iff.1 hms, findOobBlock_none_iff.1 hob, ?_⟩
            rw [← h]
            exact hwv

theorem load_ok_cell {inp : MazeInput} {m : Maze} (h : load inp = Except.ok m) :
    (∀ p : Pos, m.inBounds p = true → ∃ b, m.cell p = Except.ok b ∧ b.pos = p) ∧
    (∀ p : Pos, m.inBounds p = false → m.cell p = Except.error (CellErr.OutOfBounds p)) := by
  obtain ⟨bs, hp, hm, hnd, hcov, hin, hwv⟩ := load_ok_inv h
  have hw : m.width = inp.width := by rw [hm]
  have hh : m.height = inp.height := by rw [hm]
  have hbl : m.blocks = bs := by rw [hm]
  constructor
  · intro p hb
    obtain ⟨hr, hc⟩ := inBounds_spec hb
    rw [hh] at hr
    rw [hw] at hc
    obtain ⟨b, hbmem, hbp⟩ := hcov p hr hc
    cases hf : m.blocks.find? (fun b => decide (b.pos = p)) with
    | none =>
      exfalso
      rw [List.find?_eq_none] at hf
      have := hf b (by rw [hbl]; exact hbmem)
      simp [hbp] at this
    | some b' =>
      have hpred := List.find?_some hf
      rw [decide_eq_true_eq] at hpred
      refine ⟨b', ?_, hpred⟩
      unfold Maze.cell
      rw [if_pos hb, hf]
  · intro p hb
    unfold Maze.cell
    rw [if_neg (by rw [hb]; exact Bool.false_ne_true)]

/-! ## Encoder lemmas -/

theorem deltaDir_eq_some_iff {a b : Pos} {d : Dir} :
    deltaDir a b = some d ↔ stepDir a d = some b := by
  obtain ⟨ar, ac⟩ := a
  obtain ⟨br, bc⟩ := b
  cases d <;>
    simp only [deltaDir, stepDir] <;>
    split_ifs <;>
    simp_all [Pos.mk.injEq] <;>
    omega

theorem encodeMoves_ok_of_adjacent :
    ∀ l : List Pos, List.Chain' adjacentStep l →
      ∃ ds, encodeMoves l = Except.ok ds ∧
        List.Forall₂ (fun ab d => stepDir ab.fst d = some ab.snd) (l.zip l.tail) ds := by
  intro l
  induction l with
  | nil =>
    intro _
    exact ⟨[], rfl, by simp⟩
  | cons a t ih =>
    intro hc
    cases t with
    | nil => exact ⟨[], rfl, by simp⟩
    | cons b rest =>
      rw [List.chain'_cons] at hc
      obtain ⟨⟨d, hd⟩, hc2⟩ := hc
      obtain ⟨ds, hds, hfa⟩ := ih hc2
      refine ⟨d :: ds, ?_, ?_⟩
      · simp only [encodeMoves]
        rw [deltaDir_eq_some_iff.2 hd]
        simp only [hds]
      · simp only [List.zip_cons_cons, List.tail_cons]
        exact List.Forall₂.cons hd hfa

theorem encodeMoves_error_of_nonadjacent :
    ∀ l : List Pos, ¬ List.Chain' adjacentStep l →
      ∃ a b, encodeMoves l = Except.error (EncodeErr.NonAdjacentStep a b) := by
  intro l
  induction l with
  | nil =>
    intro hc
    exact absurd List.chain'_nil hc
  | cons a t ih =>
    intro hc
    cases t with
    | nil => exact absurd (List.chain'_singleton a) hc
    | cons b rest =>
      rw [List.chain'_cons] at hc
      cases hd : deltaDir a b with
      | none =>
        refine ⟨a, b, ?_⟩
        simp only [encodeMoves, hd]
      | some d =>
        have hab : adjacentStep a b := ⟨d, deltaDir_eq_some_iff.1 hd⟩
        have hc2 : ¬ List.Chain' adjacentStep (b :: rest) := by
          intro h2
          exact hc ⟨hab, h2⟩
        obtain ⟨x, y, hxy⟩ := ih hc2
        refine ⟨x, y, ?_⟩
        simp only [encodeMoves, hd, hxy]

theorem decodeMoves_encodeMoves :
    ∀ (l : List Pos) (x : Pos) (ds : List Dir),
      encodeMoves l = Except.ok ds → l.head? = some x →
      decodeMoves x ds = some l := by
  intro l
  induction l with
  | nil =>
    intro x ds _ hx
    exact absurd hx (by simp)
  | cons a t ih =>
    intro x ds hds hx
    simp only [List.head?_cons, Option.some.injEq] at hx
    cases t with
    | nil =>
      simp only [encodeMoves] at hds
      injection hds with hds
      rw [← hds, ← hx]
      rfl
    | cons b rest =>
      simp only [encodeMoves] at hds
      cases hd : deltaDir a b with
      | none =>
        rw [hd] at hds
        exact absurd hds (by simp)
      | some d =>
        rw [hd] at hds
        cases hrest : encodeMoves (b :: rest) with
        | error e =>
          rw [hrest] at hds
          exact absurd hds (by simp)
        | ok ds' =>
          rw [hrest] at hds
          simp only at hds
          injection hds with hds
          have hdec := ih b ds' hrest (by simp)
          rw [← hds, ← hx]
          simp only [decodeMoves]
          rw [deltaDir_eq_some_iff.1 hd]
          simp only [hdec]

theorem isPath_chain_adjacent {m : Maze} {s g : Pos} {l : List Pos}
    (h : isPath m s g l) : List.Chain' adjacentStep l := by
  refine List.Chain'.imp ?_ h.2.2
  intro a b hab
  exact mem_neighbors_step hab

theorem unreachable_of_no_neighbors {m : Maze} {s g : Pos}
    (h : m.neighbors s = []) (hne : ¬ g = s) : ¬ reachable m s g := by
  rintro ⟨l, hl⟩
  cases l with
  | nil => exact absurd hl.1 (by simp)
  | cons a t =>
    have ha : a = s := by
      have := hl.1
      simp only [List.head?_cons, Option.some.injEq] at this
      exact this
    cases t with
    | nil =>
      have := hl.2.1
      simp only [List.getLast?_singleton, Option.some.injEq] at this
      rw [← this] at hne
      exact hne ha
    | cons b u =>
      have hchain : List.Chain' (fun x y => y ∈ m.neighbors x) (a :: b :: u) := hl.2.2
      rw [List.chain'_cons] at hchain
      have hb := hchain.1
      rw [ha, h] at hb
      exact absurd hb (List.not_mem_nil b)

/-! ## Claim theorems -/

/-- C1: For every successfully loaded maze, every in-bounds start cell, and
every goal cell reachable from the start through passable walls, the Path
Search Engine returns a path whose number of moves is the minimum over all
block-wise paths from start to goal in that maze (BFS optimality under
uniform edge cost). -/
theorem C1_search_optimal {inp : MazeInput} {m : Maze} {s g : Pos}
    (_hload : load inp = Except.ok m) (hs : m.inBounds s = true)
    (hr : reachable m s g) :
    ∃ p, m.search s g = Except.ok p ∧ isPath m s g p ∧
      ∀ l, isPath m s g l → p.length ≤ l.length :=
  search_spec hs hr

/-- Witness for C1 on the documented 3×3 maze, start (0,0), goal (2,2). -/
theorem C1_search_optimal_witness :
    ∃ p, ex3Maze.search ⟨0, 0⟩ ⟨2, 2⟩ = Except.ok p ∧
      isPath ex3Maze ⟨0, 0⟩ ⟨2, 2⟩ p ∧
      ∀ l, isPath ex3Maze ⟨0, 0⟩ ⟨2, 2⟩ l → p.length ≤ l.length :=
  C1_search_optimal (show load ex3Input = Except.ok ex3Maze by decide)
    (by decide) ⟨ex3Path, by decide⟩

/-- C2: For every successfully loaded maze and in-bounds start and goal
cells with the goal not reachable from the start, the Path Search Engine
terminates visiting at most `width * height` cells and returns the
`NoPathExists` result. -/
theorem C2_search_unreachable {inp : MazeInput} {m : Maze} {s g : Pos}
    (_hload : load inp = Except.ok m) (hs : m.inBounds s = true)
    (hg : m.inBounds g = true) (hr : ¬ reachable m s g) :
    m.search s g = Except.error SearchErr.NoPathExists ∧
      (m.searchVisited s g).length ≤ m.width * m.height :=
  ⟨search_unreachable hs hg hr, searchVisited_bound hs⟩

/-- Witness for C2 on the 2×1 maze whose cells are fully walled in. -/
theorem C2_search_unreachable_witness :
    isoMaze.search ⟨0, 0⟩ ⟨0, 1⟩ = Except.error SearchErr.NoPathExists ∧
      (isoMaze.searchVisited ⟨0, 0⟩ ⟨0, 1⟩).length ≤ isoMaze.width * isoMaze.height :=
  C2_search_unreachable (show load isoInput = Except.ok isoMaze by decide)
    (by decide) (by decide)
    (unreachable_of_no_neighbors (by decide) (by decide))

/-- C3: The Maze Loader fails with `MalformedRecord` when some record has a
missing or wrong-typed field; with `DuplicateCell` when (all records parse
and) some coordinate appears in two records; with `MissingCell` when (all
records parse, no coordinate repeats and) some in-bounds coordinate has no
record; and it succeeds only with exactly `width * height` records, one per
cell. -/
theorem C3_loader_errors (inp : MazeInput) :
    ((∃ r, r ∈ inp.blocks ∧ parseRecord r = none) →
      ∃ j, load inp = Except.error (LoadErr.MalformedRecord j)) ∧
    (∀ bs, parseRecords 0 inp.blocks = Except.ok bs →
      ¬ (bs.map Block.pos).Nodup →
      ∃ p, load inp = Except.error (LoadErr.DuplicateCell p)) ∧
    (∀ bs, parseRecords 0 inp.blocks = Except.ok bs →
      (bs.map Block.pos).Nodup →
      (∃ p : Pos, p.row < inp.height ∧ p.col < inp.width ∧
        ∀ b, b ∈ bs → ¬ b.pos = p) →
      ∃ p, load inp = Except.error (LoadErr.MissingCell p)) ∧
    (∀ m, load inp = Except.ok m →
      inp.blocks.length = inp.width * inp.height ∧
      ∀ p : Pos, p.row < inp.height → p.col < inp.width →
        ∃ b, b ∈ m.blocks ∧ b.pos = p ∧
          ∀ b', b' ∈ m.blocks → b'.pos = p → b' = b) := by
  refine ⟨load_malformed, ?_, ?_, ?_⟩
  · intro bs hp hd
    exact load_duplicate hp hd
  · intro bs hp hd hm
    exact load_missing hp hd hm
  · intro m hm
    obtain ⟨bs, hp, hmeq, hnd, hcov, hin, _⟩ := load_ok_inv hm
    have hbl : m.blocks = bs := by rw [hmeq]
    have hlen2 : bs.length = inp.width * inp.height := blocks_count hnd hcov hin
    have hlen1 : inp.blocks.length = bs.length :=
      (parseRecords_ok_forall₂ 0 inp.blocks bs hp).length_eq
    refine ⟨by rw [hlen1, hlen2], ?_⟩
    intro p hr hc
    obtain ⟨b, hbmem, hbp⟩ := hcov p hr hc
    refine ⟨b, by rw [hbl]; exact hbmem, hbp, ?_⟩
    intro b' hb' hbp'
    refine List.inj_on_of_nodup_map hnd ?_ hbmem ?_
    · rw [hbl] at hb'
      exact hb'
    · rw [hbp', hbp]

/-- Witness for C3: the four loader behaviors at concrete inputs. -/
theorem C3_loader_errors_witness :
    (∃ j, load malInput = Except.error (LoadErr.MalformedRecord j)) ∧
    (∃ p, load dupInput = Except.error (LoadErr.DuplicateCell p)) ∧
    (∃ p, load missInput = Except.error (LoadErr.MissingCell p)) ∧
    ex3Input.blocks.length = ex3Input.width * ex3Input.height := by
  refine ⟨(C3_loader_errors malInput).1
      ⟨[("pos", JVal.jarr [0, 0])], by decide, by decide⟩,
    (C3_loader_errors dupInput).2.1
      [⟨⟨0, 0⟩, false, false, false, false⟩, ⟨⟨0, 0⟩, false, false, false, false⟩]
      (by decide) (by decide),
    (C3_loader_errors missInput).2.2.1
      [⟨⟨0, 0⟩, false, false, false, false⟩] (by decide) (by decide)
      ⟨⟨0, 1⟩, by decide, by decide, by decide⟩,
    ((C3_loader_errors ex3Input).2.2.2 ex3Maze (by decide)).1⟩

/-- C4: When Maze Model construction is reached and some adjacent cell pair
disagrees on its shared wall, the Loader fails with `InconsistentWalls`
whose error value lists exactly the violating edges (all of them — an edge
is in the list iff it is a violating edge); in particular a 2×1 maze with
exactly one mismatched shared wall fails naming exactly that edge. -/
theorem C4_inconsistent_walls :
    (∀ (inp : MazeInput) (bs : List Block),
      parseRecords 0 inp.blocks = Except.ok bs →
      findDupPos bs = none →
      findMissingPos inp.width inp.height bs = none →
      findOobBlock inp.width inp.height bs = none →
      wallViolations ⟨inp.width, inp.height, bs⟩ ≠ [] →
      load inp = Except.error
        (LoadErr.InconsistentWalls (wallViolations ⟨inp.width, inp.height, bs⟩)) ∧
      ∀ e, e ∈ wallViolations ⟨inp.width, inp.height, bs⟩ ↔
        violatingEdge ⟨inp.width, inp.height, bs⟩ e) ∧
    load badInput = Except.error
      (LoadErr.InconsistentWalls [⟨⟨0, 0⟩, ⟨0, 1⟩⟩]) := by
  constructor
  · intro inp bs hp hd hms hob hwv
    exact ⟨load_inconsistent hp hd hms hob hwv, fun e => mem_wallViolations⟩
  · decide

/-- Witness for C4 on the 2×1 maze with one mismatched shared wall. -/
theorem C4_inconsistent_walls_witness :
    load badInput = Except.error
      (LoadErr.InconsistentWalls (wallViolations ⟨2, 1, badBlocks⟩)) ∧
    violatingEdge ⟨2, 1, badBlocks⟩ ⟨⟨0, 0⟩, ⟨0, 1⟩⟩ := by
  have h := C4_inconsistent_walls.1 badInput badBlocks (by decide) (by decide)
    (by decide) (by decide) (by decide)
  exact ⟨h.1, (h.2 ⟨⟨0, 0⟩, ⟨0, 1⟩⟩).1 (by decide)⟩

/-- C5: For every maze built by the Loader, cell lookup succeeds at every
in-bounds coordinate and fails with `OutOfBounds` at every out-of-bounds
coordinate; and a coordinate is in a cell's reachable-neighbor set iff the
cell's wall flag toward it is true and it is in bounds. -/
theorem C5_model_contract {inp : MazeInput} {m : Maze}
    (hload : load inp = Except.ok m) :
    (∀ p : Pos, m.inBounds p = true → ∃ b, m.cell p = Except.ok b ∧ b.pos = p) ∧
    (∀ p : Pos, m.inBounds p = false →
      m.cell p = Except.error (CellErr.OutOfBounds p)) ∧
    (∀ p q : Pos, q ∈ m.neighbors p ↔
      ∃ b d, m.cell p = Except.ok b ∧ b.wall d = true ∧ stepDir p d = some q ∧
        m.inBounds q = true) :=
  ⟨(load_ok_cell hload).1, (load_ok_cell hload).2, fun _ _ => mem_neighbors_iff⟩

/-- Witness for C5 on the documented 3×3 maze. -/
theorem C5_model_contract_witness :
    (∃ b, ex3Maze.cell ⟨1, 2⟩ = Except.ok b ∧ b.pos = ⟨1, 2⟩) ∧
    ex3Maze.cell ⟨3, 1⟩ = Except.error (CellErr.OutOfBounds ⟨3, 1⟩) ∧
    (⟨1, 0⟩ : Pos) ∈ ex3Maze.neighbors ⟨0, 0⟩ := by
  have h := C5_model_contract (show load ex3Input = Except.ok ex3Maze by decide)
  exact ⟨h.1 ⟨1, 2⟩ (by decide), h.2.1 ⟨3, 1⟩ (by decide),
    (h.2.2 ⟨0, 0⟩ ⟨1, 0⟩).2 ⟨⟨⟨0, 0⟩, false, true, true, false⟩, Dir.south,
      by decide, by decide, by decide, by decide⟩⟩

/-- C6: The Path Encoder succeeds on every Path whose consecutive cells are
one valid single-step move apart, emitting for each consecutive pair exactly
the direction matching the coordinate delta (north = row-1, south = row+1,
east = col+1, west = col-1, as `stepDir` encodes); on every Path containing
a non-adjacent consecutive pair it fails with `NonAdjacentStep`. -/
theorem C6_encoder (l : List Pos) :
    (List.Chain' adjacentStep l →
      ∃ ds, encodeMoves l = Except.ok ds ∧
        List.Forall₂ (fun ab d => stepDir ab.fst d = some ab.snd)
          (l.zip l.tail) ds) ∧
    (¬ List.Chain' adjacentStep l →
      ∃ a b, encodeMoves l = Except.error (EncodeErr.NonAdjacentStep a b)) :=
  ⟨encodeMoves_ok_of_adjacent l, encodeMoves_error_of_nonadjacent l⟩

/-- Witness for C6: an adjacent two-cell path and a non-adjacent one. -/
theorem C6_encoder_witness :
    (∃ ds, encodeMoves [(⟨0, 0⟩ : Pos), ⟨0, 1⟩] = Except.ok ds ∧
      List.Forall₂ (fun ab d => stepDir ab.fst d = some ab.snd)
        ([(⟨0, 0⟩ : Pos), ⟨0, 1⟩].zip [(⟨0, 0⟩ : Pos), ⟨0, 1⟩].tail) ds) ∧
    (∃ a b, encodeMoves [(⟨0, 0⟩ : Pos), ⟨5, 5⟩] =
      Except.error (EncodeErr.NonAdjacentStep a b)) :=
  ⟨(C6_encoder [⟨0, 0⟩, ⟨0, 1⟩]).1 (by decide),
    (C6_encoder [⟨0, 0⟩, ⟨5, 5⟩]).2 (by decide)⟩

/-- C7: Every path returned by the Path Search Engine encodes successfully,
and decoding the emitted directions from the path's start cell reproduces
the original cell sequence exactly (encode/decode round-trip identity). -/
theorem C7_roundtrip {inp : MazeInput} {m : Maze} {s g : Pos} {p : List Pos}
    (_hload : load inp = Except.ok m) (hsearch : m.search s g = Except.ok p) :
    ∃ ds, encodeMoves p = Except.ok ds ∧ decodeMoves s ds = some p := by
  obtain ⟨_, _, hip, _⟩ := search_ok_path hsearch
  obtain ⟨ds, hds, _⟩ := encodeMoves_ok_of_adjacent p (isPath_chain_adjacent hip)
  exact ⟨ds, hds, decodeMoves_encodeMoves p s ds hds hip.1⟩

/-- Witness for C7 on the documented 3×3 maze. -/
theorem C7_roundtrip_witness :
    ∃ ds, encodeMoves ex3Path = Except.ok ds ∧
      decodeMoves ⟨0, 0⟩ ds = some ex3Path :=
  C7_roundtrip (show load ex3Input = Except.ok ex3Maze by decide)
    (show ex3Maze.search ⟨0, 0⟩ ⟨2, 2⟩ = Except.ok ex3Path by decide)

/-- C8: The Path Search Engine is deterministic — two runs of `search` on
the same maze, start and goal are identical (it is a pure function of its
inputs) — and on a 2×2 maze with two tied shortest paths from (0,0) to
(1,1) the fixed north, east, south, west neighbor-visit order makes it
return the east-first path (0,0), (0,1), (1,1). -/
theorem C8_deterministic :
    (∀ (m : Maze) (s g : Pos), m.search s g = m.search s g) ∧
    load tieInput = Except.ok tieMaze ∧
    tieMaze.search ⟨0, 0⟩ ⟨1, 1⟩ =
      Except.ok [⟨0, 0⟩, ⟨0, 1⟩, ⟨1, 1⟩] :=
  ⟨fun _ _ _ => rfl, by decide, by decide⟩

/-- C9 counterexample: in the 3×3 maze documented in the README, walking
east, south, east, south from (0,0) crosses the impassable wall between
(0,1) and (1,1) at its second move, so it is not a valid solution —
contradicting the claim that it is one valid shortest solution. -/
theorem C9_counterexample :
    load ex3Input = Except.ok ex3Maze ∧
    followMoves ex3Maze ⟨0, 0⟩ [Dir.east, Dir.south, Dir.east, Dir.south] = none := by
  decide

/-- C9 (amended): solving the documented 3×3 maze from (0,0) to (2,2)
returns a path of exactly 4 moves, and south, south, east, east is the
valid shortest solution (east, south, east, south is not valid there). -/
theorem C9_example_maze :
    load ex3Input = Except.ok ex3Maze ∧
    ex3Maze.search ⟨0, 0⟩ ⟨2, 2⟩ = Except.ok ex3Path ∧
    ex3Path.length = 5 ∧
    encodeMoves ex3Path = Except.ok [Dir.south, Dir.south, Dir.east, Dir.east] ∧
    followMoves ex3Maze ⟨0, 0⟩ [Dir.south, Dir.south, Dir.east, Dir.east] =
      some ⟨2, 2⟩ := by
  decide

/-- C10: The fake bot HTTP server registers a single handler, at path "/",
and that handler writes exactly the string "Hello from a HandleFunc!" plus a
newline as the response body, for every request regardless of its method,
URL, or body. -/
theorem C10_fake_bot :
    fakeBotRoutes.length = 1 ∧
    fakeBotRoutes.map Prod.fst = ["/"] ∧
    ∀ r : HttpRequest, fakeBotHandler r = "Hello from a HandleFunc!\n" :=
  ⟨rfl, rfl, fun _ => rfl⟩

end CornBot
